import Mathlib

/-!
A shallow embedding of `zeep/wsdl/wsdl.py`: the WSDL definition-resolution
engine.  Python objects (`WSDL`, `Definitions`) become records; the mutable
object graph becomes an explicit `World` state threaded through the
functions; Python exceptions become an `Err` sum; recursion is made total
with an explicit fuel argument.  An event trace records every
`Definitions.merge` call and every `entity.resolve(definitions)` call so
that the temporal claims can be stated over it.
-/

/-- Python rendering of an optional XML attribute: `'%s' % None` prints
`"None"`, which is what `merge` interpolates when an import element has no
`namespace` attribute. -/
def pyStr : Option String → String
  | none => "None"
  | some s => s

/-- Boolean prefix test on character lists, mirroring `str.startswith`. -/
def listPrefix : List Char → List Char → Bool
  | [], _ => true
  | _ :: _, [] => false
  | a :: as, b :: bs => a = b && listPrefix as bs

/-- Python `s.startswith(p)`, used by `filter_namespace` in
`Definitions.merge`. -/
def strStartsWith (s p : String) : Bool := listPrefix p.data s.data

/-- Boolean substring test on character lists, mirroring Python `in`. -/
def listInfix (needle : List Char) : List Char → Bool
  | [] => listPrefix needle []
  | c :: cs => listPrefix needle (c :: cs) || listInfix needle cs

/-- Python `'://' in location`, used by `parse_imports` to decide whether a
location is a URL. -/
def hasUrlScheme (s : String) : Bool := listInfix "://".data s.data

/-- POSIX `os.path.isabs`. -/
def isAbsPath (s : String) : Bool := strStartsWith s "/"

/-- POSIX `os.path.dirname`: everything before the final slash. -/
def dirnameAux : List Char → List Char
  | [] => []
  | c :: cs => if ('/' : Char) ∈ c :: cs then c :: dirnameAux cs else []

/-- POSIX `os.path.dirname` on strings. -/
def dirname (s : String) : String :=
  String.mk (dirnameAux s.data).dropLast

/-- POSIX `os.path.join` for the two-argument relative case used here. -/
def pathJoin (d l : String) : String :=
  if d = "" then l else d ++ "/" ++ l

/-- The location arithmetic of `Definitions.parse_imports`: a relative
location of an import is joined onto the directory of the importer. -/
def resolveLocation (selfLoc l : String) : String :=
  if ¬ hasUrlScheme l ∧ ¬ isAbsPath l then pathJoin (dirname selfLoc) l else l

/-! ## Association lists with Python `dict` semantics -/

/-- First-match lookup, as Python `d[k]` / `k in d` observe it. -/
def alookup {β : Type} : List (String × β) → String → Option β
  | [], _ => none
  | p :: rest, k => if p.1 = k then some p.2 else alookup rest k

/-- Lookup for `Option String`-keyed dicts (the import maps, whose keys can
be the missing attribute `None`). -/
def olookup {β : Type} : List (Option String × β) → Option String → Option β
  | [], _ => none
  | p :: rest, k => if p.1 = k then some p.2 else olookup rest k

/-- Assignment `d[k] = v` on a Python dict: an existing key keeps its position and gets
the new value, a new key is appended. -/
def upsert {β : Type} (m : List (String × β)) (k : String) (v : β) : List (String × β) :=
  if m.any (fun p => p.1 = k) then
    m.map (fun p => if p.1 = k then (k, v) else p)
  else m ++ [(k, v)]

/-- Assignment `d[k] = v` for `Option String` keys. -/
def oupsert {β : Type} (m : List (Option String × β)) (k : Option String) (v : β) :
    List (Option String × β) :=
  if m.any (fun p => p.1 = k) then
    m.map (fun p => if p.1 = k then (k, v) else p)
  else m ++ [(k, v)]

/-- Python `dict.update`. -/
def aupdate {β : Type} (m other : List (String × β)) : List (String × β) :=
  other.foldl (fun acc p => upsert acc p.1 p.2) m

/-- Keys of an association list. -/
def akeys {β : Type} (m : List (String × β)) : List String := m.map Prod.fst

/-- Keys of an `Option String`-keyed association list. -/
def okeys {β : Type} (m : List (Option String × β)) : List (Option String) := m.map Prod.fst

/-! ## The document model (input to the engine) -/

/-- A `wsdl:import` element: both attributes may be absent. -/
structure ImportNode where
  location : Option String
  ns : Option String
deriving DecidableEq, Repr

/-- An `xsd:import` element inside an inline schema fragment.  `is2001`
records whether the element lives in the 2001 XMLSchema namespace (the
rewriting loop in `parse_types` only visits 2001 imports). -/
structure XsdImport where
  is2001 : Bool
  ns : Option String
  schemaLocation : Option String
deriving DecidableEq, Repr

/-- An inline `xsd:schema` fragment found under `wsdl:types`. -/
structure SchemaFragment where
  targetNamespace : Option String
  importNodes : List XsdImport
deriving DecidableEq, Repr

/-- A `wsdl:binding` element, carrying the namespace of its `soap:binding`
child (if any), which is what the SOAP `match` classmethods inspect. -/
structure BindingNode where
  name : String
  soapBindingNs : Option String
deriving DecidableEq, Repr

/-- A parsed entity value.  Messages, port types and services are opaque
collaborator objects (`plain`); bindings remember which protocol class
parsed them. -/
inductive Entity
  | plain (tok : String)
  | soap11 (n : BindingNode)
  | soap12 (n : BindingNode)
deriving DecidableEq, Repr

/-- One parsed WSDL document, the output of the external document parser:
its `targetNamespace`, its `wsdl:import` children, its `wsdl:types` section
(`none` when absent), and its entity declarations (already keyed by the
qualified-name text the external `parse` classmethods produce). -/
structure Document where
  targetNamespace : Option String
  importNodes : List ImportNode
  types : Option (List SchemaFragment)
  messageNodes : List (String × String)
  portTypeNodes : List (String × String)
  bindingNodes : List BindingNode
  serviceNodes : List (String × String)
deriving DecidableEq, Repr

/-- The reachable universe of documents, keyed by location (the transport /
filesystem the loader reads from). -/
def Env : Type := List (String × Document)

/-! ## Engine state -/

/-- One `Definitions` object.  `imports` is the `self.imports` dict mapping
an imported namespace attribute to the heap index of the `Definitions`
representing it. -/
structure Defs where
  location : String
  target_namespace : Option String
  schema : Option SchemaFragment
  messages : List (String × Entity)
  port_types : List (String × Entity)
  bindings : List (String × Entity)
  services : List (String × Entity)
  imports : List (Option String × Nat)
deriving DecidableEq, Repr

instance : Inhabited Defs :=
  ⟨⟨"", none, none, [], [], [], [], []⟩⟩

/-- Which of the four entity collections a `resolve` call came from. -/
inductive EntityKind
  | message
  | portType
  | binding
  | service
deriving DecidableEq, Repr

/-- Observable events: a `merge(other, namespace)` call on a `Definitions`
(`self`, `ns`, `other`), and an `entity.resolve(self)` call. -/
inductive Event
  | mergeEvt (self : Nat) (ns : Option String) (other : Nat)
  | resolveEvt (kind : EntityKind) (e : Entity) (self : Nat)
deriving DecidableEq, Repr

/-- The mutable state of one `WSDL` load: the heap of `Definitions`
objects, the WSDL-wide namespace registry (`wsdl._definitions`), the inline
schema-fragment registry (`wsdl._schema_references`), the log of fetched
locations, and the event trace. -/
structure World where
  store : List Defs
  registry : List (Option String × Nat)
  schema_references : List (String × SchemaFragment)
  fetchLog : List String
  trace : List Event
deriving DecidableEq, Repr

/-- Dereference a heap index. -/
def getDefs (w : World) (i : Nat) : Defs := w.store.getD i default

/-- Write back a heap index. -/
def setDefs (w : World) (i : Nat) (d : Defs) : World :=
  { w with store := w.store.set i d }

/-- Python exceptions the module can raise, plus fuel exhaustion of the
embedding. -/
inductive Err
  | fetchError (loc : String)
  | typeError
  | attributeError
  | outOfFuel
deriving DecidableEq, Repr

/-! ## parse_types -/

/-- The rewriting loop of `parse_types`: a 2001 `xsd:import` whose
`schemaLocation` is falsy (absent or empty) gets the synthetic location
`'intschema+' + namespace`; anything else is untouched. -/
def rewriteImport (imp : XsdImport) : XsdImport :=
  if imp.is2001 ∧ (imp.schemaLocation = none ∨ imp.schemaLocation = some "") then
    { imp with schemaLocation := some ("intschema+" ++ pyStr imp.ns) }
  else imp

/-- Apply the import rewrite to every visited import of a fragment. -/
def rewriteFragment (f : SchemaFragment) : SchemaFragment :=
  { f with importNodes := f.importNodes.map rewriteImport }

/-- The method `Definitions.parse_types`: register every fragment in the WSDL-wide
schema-fragment registry under `'intschema+' + targetNamespace`, rewrite
locationless intra-document imports, and build the payload `Schema` from
the first fragment.  Registration stores object references, so the registry
observes the subsequent in-place rewrite: the model registers the rewritten
fragments directly. -/
def parse_types (w : World) (types : Option (List SchemaFragment)) :
    World × Option SchemaFragment :=
  match types with
  | none => (w, none)
  | some [] => (w, none)
  | some (f₀ :: rest) =>
    let frags := f₀ :: rest
    let w := { w with
      schema_references := aupdate w.schema_references
        (frags.map (fun f => ("intschema+" ++ pyStr f.targetNamespace, rewriteFragment f))) }
    (w, some (rewriteFragment f₀))

/-! ## Binding dispatch -/

/-- Modelled from the spec: `Soap11Binding.match` — the binding-protocol
candidate contract `matches(node) -> bool` of the SOAP 1.1 implementation
(the class lives in `zeep.wsdl.soap`, outside this module); it tests the
`soap:binding` extensibility child for the SOAP 1.1 namespace. -/
def soap11match (n : BindingNode) : Bool :=
  n.soapBindingNs = some "http://schemas.xmlsoap.org/wsdl/soap/"

/-- Modelled from the spec: `Soap12Binding.match` — the SOAP 1.2 candidate
of the same contract. -/
def soap12match (n : BindingNode) : Bool :=
  n.soapBindingNs = some "http://schemas.xmlsoap.org/wsdl/soap12/"

/-- The method `Definitions.parse_binding`: try SOAP 1.1 first, then SOAP 1.2; a node
matching neither is skipped (`continue`).  The candidate predicates are
parameters so the dispatch logic is stated for any protocol set; the engine
instantiates them with the SOAP matchers. -/
def parse_binding (m11 m12 : BindingNode → Bool) (nodes : List BindingNode) :
    List (String × Entity) :=
  nodes.foldl
    (fun acc n =>
      if m11 n then upsert acc n.name (.soap11 n)
      else if m12 n then upsert acc n.name (.soap12 n)
      else acc)
    []

/-- The loops `parse_messages` / `parse_ports` / `parse_service`: one dict entry per
declared item, keyed by the qualified-name text. -/
def parseEntityMap (xs : List (String × String)) : List (String × Entity) :=
  xs.foldl (fun acc p => upsert acc p.1 (.plain p.2)) []

/-! ## merge -/

/-- The `filter_namespace` closure of `Definitions.merge`: keep entries
whose qualified-name key starts with `'{%s}' % namespace`. -/
def filter_namespace (source : List (String × Entity)) (ns : Option String) :
    List (String × Entity) :=
  source.filter (fun p => strStartsWith p.1 ("\x7b" ++ pyStr ns ++ "\x7d"))

/-- The record mutation performed by `Definitions.merge(other, namespace)`:
adopt `other`'s schema when we have none, then update the four entity maps
with the namespace-filtered entries of `other`. -/
def mergedDefs (self other : Defs) (ns : Option String) : Defs :=
  let self := if self.schema = none then { self with schema := other.schema } else self
  { self with
    port_types := aupdate self.port_types (filter_namespace other.port_types ns),
    messages := aupdate self.messages (filter_namespace other.messages ns),
    bindings := aupdate self.bindings (filter_namespace other.bindings ns),
    services := aupdate self.services (filter_namespace other.services ns) }

/-- The method `Definitions.merge(other, namespace)`: perform the map updates, then
take the final branch: when `namespace` is not registered the code writes
to `self._definitions`, an attribute `Definitions` never defines, which
raises `AttributeError`. -/
def mergeStep (w : World) (x : Nat) (ns : Option String) (o : Nat) : Except Err World :=
  let w := { w with trace := w.trace ++ [.mergeEvt x ns o] }
  let w := setDefs w x (mergedDefs (getDefs w x) (getDefs w o) ns)
  if (olookup w.registry ns).isSome then .ok w else .error .attributeError

/-- The merge loop of `resolve_imports`: merge every pending import, in
dict order. -/
def mergeAll (w : World) (x : Nat) : List (Option String × Nat) → Except Err World
  | [] => .ok w
  | p :: rest =>
    match mergeStep w x p.1 p.2 with
    | .error e => .error e
    | .ok w' => mergeAll w' x rest

/-- The resolve phase of one `resolve_imports` frame: `resolve(self)` on
every message, then port type, then binding, then service. -/
def resolveBlock (x : Nat) (d : Defs) : List Event :=
  d.messages.map (fun p => .resolveEvt .message p.2 x)
    ++ d.port_types.map (fun p => .resolveEvt .portType p.2 x)
    ++ d.bindings.map (fun p => .resolveEvt .binding p.2 x)
    ++ d.services.map (fun p => .resolveEvt .service p.2 x)

/-- Emit the resolve phase into the trace. -/
def resolvePhase (w : World) (x : Nat) : World :=
  { w with trace := w.trace ++ resolveBlock x (getDefs w x) }

/-- Recurse `resolve_imports` into the snapshot of pending imports. -/
def resolveList (recur : World → Nat → Except Err World) :
    World → List (Option String × Nat) → Except Err World
  | w, [] => .ok w
  | w, p :: rest =>
    match recur w p.2 with
    | .error e => .error e
    | .ok w' => resolveList recur w' rest

/-- One frame of `Definitions.resolve_imports` (merge every pending import;
snapshot and clear `self.imports`; recurse into the snapshot; resolve
messages, port types, bindings, services) given the recursive callback. -/
def resolveBody (recur : World → Nat → Except Err World) (w : World) (x : Nat) :
    Except Err World :=
  let snapshot := (getDefs w x).imports
  match mergeAll w x snapshot with
  | .error e => .error e
  | .ok w =>
    let w := setDefs w x { getDefs w x with imports := [] }
    match resolveList recur w snapshot with
    | .error e => .error e
    | .ok w => .ok (resolvePhase w x)

/-- The method `Definitions.resolve_imports`, fuel-indexed. -/
def resolveImports : Nat → World → Nat → Except Err World
  | 0, _, _ => .error .outOfFuel
  | fuel + 1, w, x => resolveBody (resolveImports fuel) w x

/-! ## Construction (`Definitions.__init__` / `parse_imports`) -/

/-- Record `self.imports[namespace] = definitions` on the importer. -/
def addImport (w : World) (x : Nat) (ns : Option String) (d : Nat) : World :=
  setDefs w x { getDefs w x with imports := oupsert (getDefs w x).imports ns d }

/-- The loop of `Definitions.parse_imports` given the recursive builder.
A missing `location` attribute makes the very next line
(`'://' not in location`) raise `TypeError`.  A namespace already present
in the WSDL-wide registry is reused; otherwise the imported document is
built recursively. -/
def processImports (env : Env) (build : World → String → Except Err (Nat × World))
    (x : Nat) (selfLoc : String) :
    World → List ImportNode → Except Err World
  | w, [] => .ok w
  | w, node :: rest =>
    match node.location with
    | none => .error .typeError
    | some l =>
      let loc := resolveLocation selfLoc l
      match olookup w.registry node.ns with
      | some d => processImports env build x selfLoc (addImport w x node.ns d) rest
      | none =>
        match build w loc with
        | .error e => .error e
        | .ok (d, w') => processImports env build x selfLoc (addImport w' x node.ns d) rest

/-- The body of `Definitions.__init__`: fetch and parse the document (a
missing location is the transport/file error), allocate the object with
empty maps, register it under its `targetNamespace` in the WSDL-wide
registry *before* recursing into `parse_imports`, then parse types,
messages, port types, bindings and services into the object. -/
def buildBody (env : Env) (build : World → String → Except Err (Nat × World))
    (w : World) (loc : String) : Except Err (Nat × World) :=
  match alookup env loc with
  | none => .error (.fetchError loc)
  | some doc =>
    let w := { w with fetchLog := w.fetchLog ++ [loc] }
    let x := w.store.length
    let w := { w with store := w.store ++
      [({ location := loc, target_namespace := doc.targetNamespace, schema := none,
          messages := [], port_types := [], bindings := [], services := [],
          imports := [] } : Defs)] }
    let w := { w with registry := oupsert w.registry doc.targetNamespace x }
    match processImports env build x loc w doc.importNodes with
    | .error e => .error e
    | .ok w =>
      let (w, schema) := parse_types w doc.types
      let w := setDefs w x { getDefs w x with
        schema := schema,
        messages := parseEntityMap doc.messageNodes,
        port_types := parseEntityMap doc.portTypeNodes,
        bindings := parse_binding soap11match soap12match doc.bindingNodes,
        services := parseEntityMap doc.serviceNodes }
      .ok (x, w)

/-- The constructor `Definitions(wsdl, location)`, fuel-indexed. -/
def buildDef (env : Env) : Nat → World → String → Except Err (Nat × World)
  | 0, _, _ => .error .outOfFuel
  | fuel + 1, w, loc => buildBody env (buildDef env fuel) w loc

/-- The empty `WSDL` state before the root document is loaded. -/
def emptyWorld : World := ⟨[], [], [], [], []⟩

/-- The constructor `WSDL.__init__`: build the root `Definitions` and resolve imports.
Returns the root's heap index and the final state. -/
def loadWSDL (env : Env) (fuel : Nat) (location : String) : Except Err (Nat × World) :=
  match buildDef env fuel emptyWorld location with
  | .error e => .error e
  | .ok (root, w) =>
    match resolveImports fuel w root with
    | .error e => .error e
    | .ok w => .ok (root, w)

/-! ## mergeStep lemmas -/

/-- The world produced by a successful `merge`. -/
def mergeResult (w : World) (x : Nat) (ns : Option String) (o : Nat) : World :=
  { setDefs w x (mergedDefs (getDefs w x) (getDefs w o) ns) with
    trace := w.trace ++ [.mergeEvt x ns o] }

/-! ## Schema fallback (merge loop) -/

/-- The first non-empty schema among the pending imports, in declaration
order. -/
def firstImportedSchema (w : World) (imps : List (Option String × Nat)) :
    Option SchemaFragment :=
  imps.foldl
    (fun acc p =>
      match acc with
      | some s => some s
      | none => (getDefs w p.2).schema)
    none

instance {ε α : Type} [DecidableEq ε] [DecidableEq α] : DecidableEq (Except ε α) := fun x y =>
  match x, y with
  | .ok a, .ok b =>
    if h : a = b then isTrue (by rw [h]) else isFalse (by intro hc; cases hc; exact h rfl)
  | .error a, .error b =>
    if h : a = b then isTrue (by rw [h]) else isFalse (by intro hc; cases hc; exact h rfl)
  | .ok _, .error _ => isFalse (by intro hc; cases hc)
  | .error _, .ok _ => isFalse (by intro hc; cases hc)

/-- Extract the world of a successful run (dummy on error); lets closed
statements name the result of a concrete run. -/
def exOk : Except Err World → World
  | .ok w => w
  | .error _ => emptyWorld

/-- Concrete data for the schema-fallback witness: a schema-less importer
with three pending imports, of which the second and third carry schemas. -/
def c6self : Defs := ⟨"a.wsdl", some "urn:a", none, [], [], [], [],
  [(some "n1", 1), (some "n2", 2), (some "n3", 3)]⟩

def c6d1 : Defs := ⟨"b.wsdl", some "n1", none, [], [], [], [], []⟩

def c6d2 : Defs := ⟨"c.wsdl", some "n2", some ⟨some "s1", []⟩, [], [], [], [], []⟩

def c6d3 : Defs := ⟨"d.wsdl", some "n3", some ⟨some "s2", []⟩, [], [], [], [], []⟩

def c6w : World := ⟨[c6self, c6d1, c6d2, c6d3],
  [(some "n1", 1), (some "n2", 2), (some "n3", 3)], [], [], []⟩

def c6imps : List (Option String × Nat) := [(some "n1", 1), (some "n2", 2), (some "n3", 3)]

/-- Concrete binding nodes for the C8 witness: `c8n1` matches both
candidate predicates below (SOAP 1.1 wins by priority), `c8n2` matches
neither (skipped), `c8n3` matches only the second. -/
def c8n1 : BindingNode := ⟨"b1", some "p1"⟩

def c8n2 : BindingNode := ⟨"b2", none⟩

def c8n3 : BindingNode := ⟨"b3", some "p2"⟩

def c8m11 : BindingNode → Bool := fun n => n.soapBindingNs = some "p1"

def c8m12 : BindingNode → Bool := fun n => n.soapBindingNs ≠ none

/-- Concrete input for the C7 counterexample: a 2001 `xsd:import` that
carries an (empty) `schemaLocation` attribute. -/
def c7imp : XsdImport := ⟨true, some "urn:x", some ""⟩

def c7frag : SchemaFragment := ⟨some "urn:s", [c7imp]⟩

/-- A one-document world for the C5 witness. -/
def c5w : World := ⟨[⟨"a.wsdl", some "urn:a", none,
  [("\x7burn:a\x7dm", .plain "m")], [], [], [], []⟩], [(some "urn:a", 0)], [], [], []⟩

/-- Boolean success test for a load result. -/
def isOk : Except Err (Nat × World) → Bool
  | .ok _ => true
  | .error _ => false

/-- Environment for the C9 counterexample: the root's only import has no
`namespace` attribute, and the imported document has no `targetNamespace`
either (so the missing key is registered and `merge` finds it). -/
def c9docA : Document :=
  ⟨some "urn:a", [⟨some "b.wsdl", none⟩], none, [("\x7burn:a\x7dmA", "mA")], [], [], []⟩

def c9docB : Document := ⟨none, [], none, [], [], [], []⟩

def c9env : Env := [("a.wsdl", c9docA), ("b.wsdl", c9docB)]

/-- Concrete chain for the C1 witness: A imports B, B imports C; C declares
`Echo` in `urn:c`; B re-declares an `Echo` of its own in `urn:b` and even
holds a `urn:c`-keyed entry that must not leak up. -/
def c1A : Defs := ⟨"a.wsdl", some "urn:a", none,
  [("\x7burn:a\x7dmA", .plain "mA")], [], [], [], [(some "urn:b", 1)]⟩

def c1B : Defs := ⟨"b.wsdl", some "urn:b", none,
  [("\x7burn:b\x7dEcho", .plain "EchoB"), ("\x7burn:c\x7dmC", .plain "leak")],
  [], [], [], [(some "urn:c", 2)]⟩

def c1C : Defs := ⟨"c.wsdl", some "urn:c", none,
  [("\x7burn:c\x7dEcho", .plain "EchoC")], [], [], [], []⟩

/-- Final world of a load (dummy on error). -/
def loadedWorld : Except Err (Nat × World) → World
  | .ok p => p.2
  | .error _ => emptyWorld

/-- Cyclic two-document environment: A imports B and B imports A. -/
def c3docA : Document :=
  ⟨some "urn:a", [⟨some "b.wsdl", some "urn:b"⟩], none,
    [("\x7burn:a\x7dmA", "mA")], [], [], []⟩

def c3docB : Document :=
  ⟨some "urn:b", [⟨some "a.wsdl", some "urn:a"⟩], none,
    [("\x7burn:b\x7dmB", "mB")], [], [], []⟩

def c3env : Env := [("a.wsdl", c3docA), ("b.wsdl", c3docB)]

/-- Acyclic chain environment for the amended C3: A imports B imports C. -/
def c3cA : Document :=
  ⟨some "urn:a", [⟨some "b.wsdl", some "urn:b"⟩], none,
    [("\x7burn:a\x7dmA", "mA")], [], [], []⟩

def c3cB : Document :=
  ⟨some "urn:b", [⟨some "c.wsdl", some "urn:c"⟩], none,
    [("\x7burn:b\x7dmB", "mB")], [], [], []⟩

def c3cC : Document :=
  ⟨some "urn:c", [], none, [("\x7burn:c\x7dmC", "mC")], [], [], []⟩

def c3chainEnv : Env := [("a.wsdl", c3cA), ("b.wsdl", c3cB), ("c.wsdl", c3cC)]

/-- Environment for the C10 counterexample: the root references `b.wsdl`
under the namespace `urn:x`, but `b.wsdl` declares `urn:b`; a second import
re-keys `urn:x` to `d.wsdl`, which really declares `urn:x`. -/
def c10docA : Document :=
  ⟨some "urn:a", [⟨some "b.wsdl", some "urn:x"⟩, ⟨some "d.wsdl", some "urn:x"⟩],
    none, [], [], [], []⟩

def c10docB : Document := ⟨some "urn:b", [], none, [], [], [], []⟩

def c10docD : Document :=
  ⟨some "urn:x", [], none, [("\x7burn:x\x7dmX", "mX")], [], [], []⟩

def c10env : Env := [("a.wsdl", c10docA), ("b.wsdl", c10docB), ("d.wsdl", c10docD)]

/-! ## Environment consistency, measures, invariants -/

/-- A well-formed import declaration relative to `env`: both attributes
present, the resolved location fetches a document, and that document's
`targetNamespace` equals the declared `namespace` attribute. -/
def importOk (env : Env) (selfLoc : String) (node : ImportNode) : Prop :=
  ∃ l doc, node.location = some l
    ∧ alookup env (resolveLocation selfLoc l) = some doc
    ∧ doc.targetNamespace = node.ns

/-- Environment consistency: distinct locations, and every import
declaration of every reachable document is well formed. -/
def envOk (env : Env) : Prop :=
  (env.map Prod.fst).Nodup ∧
  ∀ loc doc, alookup env loc = some doc → ∀ node ∈ doc.importNodes, importOk env loc node

/-- The target namespaces declared by the environment's documents. -/
def envNamespaces (env : Env) : List (Option String) :=
  (env.map (fun p => p.2.targetNamespace)).dedup

/-- How many environment namespaces are still unregistered: the
termination measure of the recursive builder. -/
def measureKeys (env : Env) (K : List (Option String)) : Nat :=
  ((envNamespaces env).filter (fun t => decide (t ∉ K))).length

/-- Total pending imports in the heap: the termination measure of
`resolve_imports`. -/
def pendingCount (w : World) : Nat :=
  (w.store.map (fun d => d.imports.length)).sum

/-- Import declarations of not-yet-fetched documents. -/
def envBudget (l : List (String × Document)) (L : List String) : Nat :=
  ((l.filter (fun p => decide (p.1 ∉ L))).map (fun p => p.2.importNodes.length)).sum

/-- The builder invariant: the registry indexes the heap correctly, target
namespaces are unique in the heap, every heap namespace and every
recorded import key is registered, and fetched locations are distinct documents of
the environment whose namespace is registered. -/
def WInv (env : Env) (w : World) : Prop :=
  (∀ p ∈ w.registry, p.2 < w.store.length ∧ (getDefs w p.2).target_namespace = p.1)
  ∧ (w.store.map Defs.target_namespace).Nodup
  ∧ (∀ i, i < w.store.length → (getDefs w i).target_namespace ∈ okeys w.registry)
  ∧ (∀ i, ∀ q ∈ (getDefs w i).imports, q.1 ∈ okeys w.registry)
  ∧ w.fetchLog.Nodup
  ∧ (∀ loc ∈ w.fetchLog, ∃ doc, alookup env loc = some doc
      ∧ doc.targetNamespace ∈ okeys w.registry)

/-- The part of the invariant the resolve phase needs: every recorded
key of an import is registered. -/
def MInv (w : World) : Prop :=
  ∀ i, ∀ q ∈ (getDefs w i).imports, q.1 ∈ okeys w.registry

/-- The world state after the fetch–allocate–register prefix of
`Definitions.__init__` (before `parse_imports` runs). -/
def allocWorld (w : World) (loc : String) (tns : Option String) : World :=
  let w1 := { w with fetchLog := w.fetchLog ++ [loc] }
  let x := w1.store.length
  let w2 := { w1 with store := w1.store ++
    [({ location := loc, target_namespace := tns, schema := none, messages := [],
        port_types := [], bindings := [], services := [],
        imports := [] } : Defs)] }
  { w2 with registry := oupsert w2.registry tns x }

/-- The builder contract at bound `m`: from an invariant-satisfying world
with the document's namespace unregistered and fewer than `m` namespaces
left, the build succeeds preserving the invariant, growing the registry,
registering the namespace, and not increasing pending-plus-budget. -/
def BuildSpec (env : Env) (m : Nat) (build : World → String → Except Err (Nat × World)) :
    Prop :=
  ∀ (w : World) (loc : String) (doc : Document),
    alookup env loc = some doc →
    doc.targetNamespace ∉ okeys w.registry →
    WInv env w →
    measureKeys env (okeys w.registry) < m →
    ∃ x w', build w loc = .ok (x, w')
      ∧ WInv env w'
      ∧ (∀ k ∈ okeys w.registry, k ∈ okeys w'.registry)
      ∧ doc.targetNamespace ∈ okeys w'.registry
      ∧ pendingCount w' + envBudget env w'.fetchLog
          ≤ pendingCount w + envBudget env w.fetchLog
      ∧ w.store.length ≤ w'.store.length

/-- The fuel that always suffices: one unit per environment document plus
one per declared import, plus one. -/
def loadFuel (env : Env) : Nat :=
  env.length + (env.map (fun p => p.2.importNodes.length)).sum + 1

/-- A one-document environment whose document imports its own namespace:
the tightest cycle. -/
def c2doc : Document :=
  ⟨some "urn:a", [⟨some "a.wsdl", some "urn:a"⟩], none,
    [("\x7burn:a\x7dm", "m")], [], [], []⟩

def c2env : Env := [("a.wsdl", c2doc)]

/-- Concrete pair for the cycle-visibility half of the C2 witness. -/
def c2A : Defs := ⟨"a.wsdl", some "urn:a", none,
  [("\x7burn:a\x7dmA", .plain "mA")], [], [], [], [(some "urn:b", 1)]⟩

def c2B : Defs := ⟨"b.wsdl", some "urn:b", none,
  [("\x7burn:b\x7dmB", .plain "mB")], [], [], [], [(some "urn:a", 0)]⟩

/-- A consistent environment with no imports, for the C10 witness. -/
def c10env2 : Env := [("r.wsdl", ⟨some "urn:r", [], none, [], [], [], []⟩)]

/-! ## Merge-before-resolve ordering (C4) -/

/-- Does this event record a `merge` into document `d`? -/
def isMergeOn (d : Nat) : Event → Bool
  | .mergeEvt self _ _ => self = d
  | .resolveEvt _ _ _ => false

/-- Does this event record an `entity.resolve(self)` call issued while
resolving document `d` (the entity belongs to `d`)? -/
def isResolveOn (d : Nat) : Event → Bool
  | .mergeEvt _ _ _ => false
  | .resolveEvt _ _ self => self = d

def hasMergeOn (d : Nat) (E : List Event) : Bool := E.any (isMergeOn d)

def hasResolveOn (d : Nat) (E : List Event) : Bool := E.any (isResolveOn d)

/-- No `merge` into `d` occurs after an entity of `d` has been resolved:
along this event list, `d`'s imports are fully merged before any of `d`'s
entities' `resolve` calls. -/
def noMergeAfterResolve (d : Nat) : List Event → Bool
  | [] => true
  | e :: rest =>
    if isResolveOn d e then rest.all (fun x => ! isMergeOn d x)
    else noMergeAfterResolve d rest

/-- The inductive contract for `resolve_imports` used by the ordering
proof: a successful call only appends events; emits no merge into a
document whose pending imports were already cleared; has cleared the
pending imports of every document whose entities it resolved; never merges
into a document after resolving one of that document's entities; and only
ever clears pending imports, never adds any. -/
def TraceSpec (recur : World → Nat → Except Err World) : Prop :=
  ∀ w x w', recur w x = .ok w' →
    ∃ E, w'.trace = w.trace ++ E
      ∧ (∀ d, (getDefs w d).imports = [] → hasMergeOn d E = false)
      ∧ (∀ d, hasResolveOn d E = true → (getDefs w' d).imports = [])
      ∧ (∀ d, noMergeAfterResolve d E = true)
      ∧ (∀ d, (getDefs w' d).imports = (getDefs w d).imports
          ∨ (getDefs w' d).imports = [])

/-- Concrete cyclic data for the C4 witness: two documents importing each
other's namespaces. -/
def c4A : Defs := ⟨"a.wsdl", some "urn:a", none,
  [("\x7burn:a\x7dmA", .plain "mA")], [("\x7burn:a\x7dpA", .plain "pA")],
  [], [], [(some "urn:b", 1)]⟩

def c4B : Defs := ⟨"b.wsdl", some "urn:b", none,
  [("\x7burn:b\x7dmB", .plain "mB")], [], [], [], [(some "urn:a", 0)]⟩

def c4w : World :=
  ⟨[c4A, c4B], [(some "urn:a", 0), (some "urn:b", 1)], [], [], []⟩

/-! ## Theorems -/

/-! ## Basic lemmas: association lists -/

theorem alookup_cons_ne {β : Type} (p : String × β) (rest : List (String × β)) (k : String)
    (h : p.1 ≠ k) : alookup (p :: rest) k = alookup rest k := by
  simp [alookup, h]

theorem alookup_map_ne {β : Type} (m : List (String × β)) (k k' : String) (v : β)
    (h : k' ≠ k) :
    alookup (m.map fun p => if p.1 = k then (k, v) else p) k' = alookup m k' := by
  induction m with
  | nil => rfl
  | cons p rest ih =>
    by_cases hp : p.1 = k
    · simp [alookup, hp, Ne.symm h, h, ih]
    · by_cases hp' : p.1 = k' <;> simp [alookup, hp, hp', h, ih]

theorem alookup_map_self {β : Type} (m : List (String × β)) (k : String) (v : β)
    (h : (m.any fun p => p.1 = k) = true) :
    alookup (m.map fun p => if p.1 = k then (k, v) else p) k = some v := by
  induction m with
  | nil => simp at h
  | cons p rest ih =>
    simp only [List.any_cons, Bool.or_eq_true, decide_eq_true_eq] at h
    by_cases hp : p.1 = k
    · simp [alookup, hp]
    · simp only [List.map_cons, if_neg hp, alookup]
      exact ih (h.resolve_left hp)

theorem alookup_append {β : Type} (m m' : List (String × β)) (k : String) :
    alookup (m ++ m') k =
      match alookup m k with
      | some v => some v
      | none => alookup m' k := by
  induction m with
  | nil => simp [alookup]
  | cons p rest ih =>
    by_cases hp : p.1 = k <;> simp [alookup, hp, ih]

theorem alookup_eq_none_of_any_eq_false {β : Type} (m : List (String × β)) (k : String)
    (h : (m.any fun p => p.1 = k) = false) : alookup m k = none := by
  induction m with
  | nil => rfl
  | cons p rest ih =>
    simp only [List.any_cons, Bool.or_eq_false_iff, decide_eq_false_iff_not] at h
    simp only [alookup, if_neg h.1]
    exact ih h.2

theorem alookup_upsert_self {β : Type} (m : List (String × β)) (k : String) (v : β) :
    alookup (upsert m k v) k = some v := by
  unfold upsert
  split
  · exact alookup_map_self m k v (by assumption)
  · rename_i h
    rw [alookup_append, alookup_eq_none_of_any_eq_false m k (Bool.eq_false_iff.mpr h)]
    simp [alookup]

theorem alookup_upsert_ne {β : Type} (m : List (String × β)) (k k' : String) (v : β)
    (h : k' ≠ k) : alookup (upsert m k v) k' = alookup m k' := by
  unfold upsert
  split
  · exact alookup_map_ne m k k' v h
  · rw [alookup_append]
    cases hm : alookup m k' with
    | some w => rfl
    | none => simp [alookup, Ne.symm h]

theorem alookup_none_iff {β : Type} (m : List (String × β)) (k : String) :
    alookup m k = none ↔ k ∉ akeys m := by
  induction m with
  | nil => simp [alookup, akeys]
  | cons p rest ih =>
    by_cases hp : p.1 = k
    · subst hp
      simp [alookup, akeys]
    · rw [alookup_cons_ne p rest k hp]
      simp only [akeys, List.map_cons, List.mem_cons, not_or]
      rw [ih]
      unfold akeys
      constructor
      · intro h
        exact ⟨fun hk => hp hk.symm, h⟩
      · intro h
        exact h.2

/-- Python `dict.update` looked up through: entries of `o` win, other keys
fall back to `m` (for `o` with duplicate-free keys). -/
theorem alookup_aupdate {β : Type} (o : List (String × β)) (k : String)
    (ho : (akeys o).Nodup) (m : List (String × β)) :
    alookup (aupdate m o) k =
      match alookup o k with
      | some v => some v
      | none => alookup m k := by
  induction o generalizing m with
  | nil => simp [aupdate, alookup]
  | cons p rest ih =>
    simp only [akeys, List.map_cons, List.nodup_cons] at ho
    have step : aupdate m (p :: rest) = aupdate (upsert m p.1 p.2) rest := by
      simp [aupdate]
    rw [step, ih ho.2]
    by_cases hp : p.1 = k
    · subst hp
      have hnone : alookup rest p.1 = none :=
        (alookup_none_iff rest p.1).mpr (by simpa [akeys] using ho.1)
      simp [hnone, alookup, alookup_upsert_self]
    · have hne : k ≠ p.1 := fun hk => hp hk.symm
      rw [alookup_cons_ne p rest k hp, alookup_upsert_ne m p.1 k p.2 hne]

theorem alookup_filter {β : Type} (f : String → Bool) (m : List (String × β)) (k : String) :
    alookup (m.filter fun p => f p.1) k = if f k then alookup m k else none := by
  induction m with
  | nil => simp [alookup]
  | cons p rest ih =>
    by_cases hp : p.1 = k
    · subst hp
      by_cases hf : f p.1 <;> simp [alookup, hf, ih]
    · by_cases hf : f p.1 <;> simp [alookup, hp, hf, ih]

/-- Lookup through `filter_namespace`: an entry survives exactly when its
key starts with the braced namespace. -/
theorem alookup_filter_namespace (m : List (String × Entity)) (ns : Option String)
    (k : String) :
    alookup (filter_namespace m ns) k =
      if strStartsWith k ("\x7b" ++ pyStr ns ++ "\x7d") then alookup m k else none := by
  unfold filter_namespace
  exact alookup_filter (fun s => strStartsWith s ("\x7b" ++ pyStr ns ++ "\x7d")) m k

theorem akeys_filter_sublist {β : Type} (f : String → Bool) (m : List (String × β)) :
    (akeys (m.filter fun p => f p.1)).Sublist (akeys m) :=
  (List.filter_sublist m).map Prod.fst

theorem akeys_upsert_nodup {β : Type} (m : List (String × β)) (k : String) (v : β)
    (h : (akeys m).Nodup) : (akeys (upsert m k v)).Nodup := by
  unfold upsert
  split
  · have heq : akeys (m.map fun p => if p.1 = k then (k, v) else p) = akeys m := by
      unfold akeys
      rw [List.map_map]
      apply List.map_congr_left
      intro p _
      by_cases hp : p.1 = k <;> simp [hp]
    rw [heq]
    exact h
  · rename_i hany
    simp only [akeys, List.map_append, List.map_cons, List.map_nil]
    rw [List.nodup_append]
    refine ⟨h, List.nodup_singleton k, ?_⟩
    intro a ha
    simp only [List.mem_singleton]
    intro hk
    subst hk
    simp only [List.any_eq_true, decide_eq_true_eq] at hany
    simp only [akeys, List.mem_map] at ha
    obtain ⟨p, hp, hpk⟩ := ha
    exact hany ⟨p, hp, hpk⟩

/-! ## String prefix disambiguation -/

theorem listPrefix_brace_core :
    ∀ (b c x : List Char), ('}' : Char) ∉ b → ('}' : Char) ∉ c →
      (listPrefix (b ++ [('}' : Char)]) (c ++ ('}' : Char) :: x) = true ↔ b = c) := by
  intro b
  induction b with
  | nil =>
    intro c x _ hc
    cases c with
    | nil => simp [listPrefix]
    | cons ch cs =>
      simp only [List.nil_append, List.cons_append, listPrefix]
      simp only [List.mem_cons, not_or] at hc
      constructor
      · intro h
        simp only [Bool.and_eq_true, decide_eq_true_eq] at h
        exact absurd h.1 hc.1
      · intro h
        exact absurd h (by simp)
  | cons a as ih =>
    intro c x ha hc
    simp only [List.mem_cons, not_or] at ha
    cases c with
    | nil =>
      simp only [List.cons_append, List.nil_append, listPrefix]
      constructor
      · intro h
        simp only [Bool.and_eq_true, decide_eq_true_eq] at h
        exact absurd h.1.symm ha.1
      · intro h
        exact absurd h (by simp)
    | cons ch cs =>
      simp only [List.cons_append, listPrefix, Bool.and_eq_true, decide_eq_true_eq,
        List.append_eq]
      simp only [List.mem_cons, not_or] at hc
      rw [ih cs x ha.2 hc.2]
      constructor
      · rintro ⟨h1, h2⟩
        rw [h1, h2]
      · intro h
        injection h with h1 h2
        exact ⟨h1, h2⟩

/-- A key of the form `{c}k` starts with `{b}` exactly when the namespaces
agree (for namespaces not containing a closing brace). -/
theorem strStartsWith_brace (b c k : String)
    (hb : ('}' : Char) ∉ b.data) (hc : ('}' : Char) ∉ c.data) :
    (strStartsWith ("\x7b" ++ c ++ "\x7d" ++ k) ("\x7b" ++ b ++ "\x7d") = true) ↔ b = c := by
  unfold strStartsWith
  have hdata : ∀ s t : String, (s ++ t).data = s.data ++ t.data := fun s t => rfl
  have hsplit : ("\x7b" ++ c ++ "\x7d" ++ k).data = ('{' : Char) :: (c.data ++ ('}' : Char) :: k.data) := by
    rw [hdata, hdata, hdata]
    simp
  have hsplit2 : ("\x7b" ++ b ++ "\x7d").data = ('{' : Char) :: (b.data ++ [('}' : Char)]) := by
    rw [hdata, hdata]
    simp
  rw [hsplit, hsplit2]
  simp only [listPrefix, Bool.and_eq_true, decide_eq_true_eq, eq_self_iff_true, true_and]
  rw [listPrefix_brace_core b.data c.data k.data hb hc]
  exact ⟨fun h => String.ext h, fun h => by rw [h]⟩

/-! ## Heap lemmas -/

theorem getDefs_setDefs_self (w : World) (x : Nat) (d : Defs) (hx : x < w.store.length) :
    getDefs (setDefs w x d) x = d := by
  unfold getDefs setDefs
  simp [List.getD_eq_getElem?_getD, List.getElem?_set_self hx]

theorem getDefs_setDefs_ne (w : World) (x y : Nat) (d : Defs) (h : y ≠ x) :
    getDefs (setDefs w x d) y = getDefs w y := by
  unfold getDefs setDefs
  simp [List.getD_eq_getElem?_getD, List.getElem?_set_ne (fun hh => h hh.symm)]

theorem setDefs_length (w : World) (x : Nat) (d : Defs) :
    (setDefs w x d).store.length = w.store.length := by
  simp [setDefs]

theorem mergeStep_eq_ok (w : World) (x : Nat) (ns : Option String) (o : Nat)
    (h : (olookup w.registry ns).isSome = true) :
    mergeStep w x ns o = .ok (mergeResult w x ns o) := by
  simp only [mergeStep, mergeResult, setDefs, getDefs]
  rw [if_pos h]

theorem mergeStep_eq_err (w : World) (x : Nat) (ns : Option String) (o : Nat)
    (h : (olookup w.registry ns).isSome = false) :
    mergeStep w x ns o = .error .attributeError := by
  simp only [mergeStep, setDefs, getDefs]
  rw [if_neg (by simp [h])]

theorem mergedDefs_schema (self other : Defs) (ns : Option String) :
    (mergedDefs self other ns).schema =
      match self.schema with
      | some s => some s
      | none => other.schema := by
  unfold mergedDefs
  cases h : self.schema <;> simp [h]

theorem mergedDefs_imports (self other : Defs) (ns : Option String) :
    (mergedDefs self other ns).imports = self.imports := by
  unfold mergedDefs
  cases h : self.schema <;> simp [h]

theorem mergedDefs_target_namespace (self other : Defs) (ns : Option String) :
    (mergedDefs self other ns).target_namespace = self.target_namespace := by
  unfold mergedDefs
  cases h : self.schema <;> simp [h]

theorem mergeResult_registry (w : World) (x : Nat) (ns : Option String) (o : Nat) :
    (mergeResult w x ns o).registry = w.registry := rfl

theorem mergeResult_fetchLog (w : World) (x : Nat) (ns : Option String) (o : Nat) :
    (mergeResult w x ns o).fetchLog = w.fetchLog := rfl

theorem mergeResult_trace (w : World) (x : Nat) (ns : Option String) (o : Nat) :
    (mergeResult w x ns o).trace = w.trace ++ [.mergeEvt x ns o] := rfl

theorem mergeResult_getDefs_ne (w : World) (x y : Nat) (ns : Option String) (o : Nat)
    (h : y ≠ x) : getDefs (mergeResult w x ns o) y = getDefs w y := by
  unfold mergeResult
  have : getDefs { setDefs w x (mergedDefs (getDefs w x) (getDefs w o) ns) with
      trace := w.trace ++ [.mergeEvt x ns o] } y =
      getDefs (setDefs w x (mergedDefs (getDefs w x) (getDefs w o) ns)) y := rfl
  rw [this, getDefs_setDefs_ne w x y _ h]

theorem mergeResult_getDefs_self (w : World) (x : Nat) (ns : Option String) (o : Nat)
    (hx : x < w.store.length) :
    getDefs (mergeResult w x ns o) x = mergedDefs (getDefs w x) (getDefs w o) ns := by
  unfold mergeResult
  have : getDefs { setDefs w x (mergedDefs (getDefs w x) (getDefs w o) ns) with
      trace := w.trace ++ [.mergeEvt x ns o] } x =
      getDefs (setDefs w x (mergedDefs (getDefs w x) (getDefs w o) ns)) x := rfl
  rw [this, getDefs_setDefs_self w x _ hx]

theorem firstImportedSchema_congr (w w' : World) (imps : List (Option String × Nat))
    (h : ∀ p ∈ imps, getDefs w' p.2 = getDefs w p.2) :
    firstImportedSchema w' imps = firstImportedSchema w imps := by
  unfold firstImportedSchema
  suffices hgen : ∀ (l : List (Option String × Nat)) (init : Option SchemaFragment),
      (∀ p ∈ l, getDefs w' p.2 = getDefs w p.2) →
      l.foldl (fun acc p => match acc with
        | some s => some s
        | none => (getDefs w' p.2).schema) init =
      l.foldl (fun acc p => match acc with
        | some s => some s
        | none => (getDefs w p.2).schema) init by
    exact hgen imps none h
  intro l
  induction l with
  | nil => intro init _; rfl
  | cons p rest ih =>
    intro init hl
    simp only [List.foldl_cons]
    have hp := hl p (by simp)
    rw [hp]
    exact ih _ (fun q hq => hl q (by simp [hq]))

theorem firstImportedSchema_of_some (w : World) (imps : List (Option String × Nat))
    (s : SchemaFragment) :
    imps.foldl (fun acc p => match acc with
      | some s => some s
      | none => (getDefs w p.2).schema) (some s) = some s := by
  induction imps with
  | nil => rfl
  | cons p rest ih => exact ih

/-- Through the merge loop, a `Definitions` with no schema picks up the
first non-empty imported schema in iteration order, and one with a schema
keeps it. -/
theorem mergeAll_schema (imps : List (Option String × Nat)) :
    ∀ (w w' : World) (x : Nat), mergeAll w x imps = .ok w' →
    (∀ p ∈ imps, p.2 ≠ x) → x < w.store.length →
    (getDefs w' x).schema =
      (match (getDefs w x).schema with
       | some s => some s
       | none => firstImportedSchema w imps) := by
  induction imps with
  | nil =>
    intro w w' x hok _ _
    simp only [mergeAll] at hok
    cases hok
    cases hs : (getDefs w x).schema <;> simp [firstImportedSchema, hs]
  | cons p rest ih =>
    intro w w' x hok hne hx
    simp only [mergeAll] at hok
    cases hstep : mergeStep w x p.1 p.2 with
    | error e => rw [hstep] at hok; cases hok
    | ok w₁ =>
      rw [hstep] at hok
      -- the step is a successful merge, so it has the mergeResult shape
      have hreg : (olookup w.registry p.1).isSome = true := by
        by_contra hcon
        rw [mergeStep_eq_err w x p.1 p.2 (Bool.eq_false_iff.mpr hcon)] at hstep
        cases hstep
      rw [mergeStep_eq_ok w x p.1 p.2 hreg] at hstep
      cases hstep
      have hxlen : x < (mergeResult w x p.1 p.2).store.length := by
        unfold mergeResult
        simpa [setDefs] using hx
      have := ih (mergeResult w x p.1 p.2) w' x hok
        (fun q hq => hne q (by simp [hq])) hxlen
      rw [this, mergeResult_getDefs_self w x p.1 p.2 hx,
        mergedDefs_schema (getDefs w x) (getDefs w p.2) p.1]
      have hcongr : firstImportedSchema (mergeResult w x p.1 p.2) rest =
          firstImportedSchema w rest :=
        firstImportedSchema_congr w (mergeResult w x p.1 p.2) rest
          (fun q hq => mergeResult_getDefs_ne w x q.2 p.1 p.2 (hne q (by simp [hq])))
      cases hs : (getDefs w x).schema with
      | some s => simp [hs]
      | none =>
        simp only [hs]
        cases ho : (getDefs w p.2).schema with
        | some s =>
          simp only [ho, firstImportedSchema, List.foldl_cons]
          rw [firstImportedSchema_of_some]
        | none =>
          simp only [ho, hcongr]
          simp only [firstImportedSchema, List.foldl_cons]
          rw [ho]

/-- C6: through the merge loop over the pending imports (in declaration
order), a `Definitions` whose own document produced no schema adopts the
first non-empty imported schema, and a `Definitions` that already has a
schema never has it replaced. -/
theorem claim_C6 (w w' : World) (x : Nat) (imps : List (Option String × Nat))
    (hok : mergeAll w x imps = .ok w') (hself : ∀ p ∈ imps, p.2 ≠ x)
    (hx : x < w.store.length) :
    ((getDefs w x).schema = none → (getDefs w' x).schema = firstImportedSchema w imps) ∧
    (∀ s, (getDefs w x).schema = some s → (getDefs w' x).schema = some s) := by
  have h := mergeAll_schema imps w w' x hok hself hx
  constructor
  · intro hs
    rw [h, hs]
  · intro s hs
    rw [h, hs]

/-- Witness for C6 at a concrete input: the importer has no schema and
adopts the schema of its second import (the first non-empty one), skipping
the schema-less first import. -/
theorem claim_C6_witness :
    (mergeAll c6w 0 c6imps = .ok (exOk (mergeAll c6w 0 c6imps))
      ∧ (getDefs c6w 0).schema = none
      ∧ firstImportedSchema c6w c6imps = some ⟨some "s1", []⟩)
    ∧ (getDefs (exOk (mergeAll c6w 0 c6imps)) 0).schema = firstImportedSchema c6w c6imps :=
  ⟨⟨by decide, by decide, by decide⟩,
    (claim_C6 c6w (exOk (mergeAll c6w 0 c6imps)) 0 c6imps (by decide)
      (by decide) (by decide)).1 (by decide)⟩

/-! ## Binding dispatch lemmas -/

theorem parse_binding_skip (m11 m12 : BindingNode → Bool) :
    ∀ (nodes : List BindingNode) (acc : List (String × Entity)) (k : String),
      (∀ n ∈ nodes, n.name ≠ k) →
      alookup (nodes.foldl
        (fun acc n =>
          if m11 n then upsert acc n.name (.soap11 n)
          else if m12 n then upsert acc n.name (.soap12 n)
          else acc) acc) k = alookup acc k := by
  intro nodes
  induction nodes with
  | nil => intro acc k _; rfl
  | cons hd tl ih =>
    intro acc k h
    have hhd : hd.name ≠ k := h hd (by simp)
    have htl : ∀ n ∈ tl, n.name ≠ k := fun n hn => h n (by simp [hn])
    simp only [List.foldl_cons]
    rw [ih _ k htl]
    by_cases h11 : m11 hd
    · simp only [h11, if_true]
      exact alookup_upsert_ne acc hd.name k _ (fun hk => hhd hk.symm)
    · by_cases h12 : m12 hd
      · simp only [h11, h12, if_false, if_true]
        exact alookup_upsert_ne acc hd.name k _ (fun hk => hhd hk.symm)
      · simp [h11, h12]

theorem parse_binding_lookup_aux (m11 m12 : BindingNode → Bool) :
    ∀ (nodes : List BindingNode) (acc : List (String × Entity)) (n : BindingNode),
      n ∈ nodes → (nodes.map BindingNode.name).Nodup →
      alookup acc n.name = none →
      alookup (nodes.foldl
        (fun acc n =>
          if m11 n then upsert acc n.name (.soap11 n)
          else if m12 n then upsert acc n.name (.soap12 n)
          else acc) acc) n.name =
        (if m11 n then some (.soap11 n)
         else if m12 n then some (.soap12 n)
         else none) := by
  intro nodes
  induction nodes with
  | nil => intro acc n hn; cases hn
  | cons hd tl ih =>
    intro acc n hn hnd hacc
    simp only [List.map_cons, List.nodup_cons] at hnd
    simp only [List.foldl_cons]
    rcases List.mem_cons.mp hn with heq | htl
    · subst heq
      have hskip : ∀ m ∈ tl, m.name ≠ n.name := by
        intro m hm hname
        exact hnd.1 (hname ▸ List.mem_map_of_mem BindingNode.name hm)
      rw [parse_binding_skip m11 m12 tl _ n.name hskip]
      by_cases h11 : m11 n
      · simp [h11, alookup_upsert_self]
      · by_cases h12 : m12 n
        · simp [h11, h12, alookup_upsert_self]
        · simp [h11, h12, hacc]
    · have hne : hd.name ≠ n.name := by
        intro hname
        exact hnd.1 (hname ▸ List.mem_map_of_mem BindingNode.name htl)
      have hacc' : alookup
          (if m11 hd then upsert acc hd.name (.soap11 hd)
           else if m12 hd then upsert acc hd.name (.soap12 hd)
           else acc) n.name = none := by
        by_cases h11 : m11 hd
        · simpa [h11, alookup_upsert_ne acc hd.name n.name _ (fun hk => hne hk.symm)]
            using hacc
        · by_cases h12 : m12 hd
          · simpa [h11, h12, alookup_upsert_ne acc hd.name n.name _ (fun hk => hne hk.symm)]
              using hacc
          · simpa [h11, h12] using hacc
      exact ih _ n htl hnd.2 hacc'

/-- C8: for every binding element, the protocol candidates are evaluated
in the fixed priority order (SOAP 1.1 before SOAP 1.2) and the first match
parses the binding; a binding matching no candidate is silently skipped and
absent from the resulting map, while every other binding of the document is
still processed. -/
theorem claim_C8 (m11 m12 : BindingNode → Bool) (nodes : List BindingNode)
    (hnd : (nodes.map BindingNode.name).Nodup) :
    ∀ n ∈ nodes,
      alookup (parse_binding m11 m12 nodes) n.name =
        (if m11 n then some (.soap11 n)
         else if m12 n then some (.soap12 n)
         else none) := by
  intro n hn
  unfold parse_binding
  exact parse_binding_lookup_aux m11 m12 nodes [] n hn hnd rfl

/-- Witness for C8 at concrete input: priority (a node matching both
parses as SOAP 1.1), silent skip, and continued processing of the rest. -/
theorem claim_C8_witness :
    alookup (parse_binding c8m11 c8m12 [c8n1, c8n2, c8n3]) "b1" = some (.soap11 c8n1)
    ∧ alookup (parse_binding c8m11 c8m12 [c8n1, c8n2, c8n3]) "b2" = none
    ∧ alookup (parse_binding c8m11 c8m12 [c8n1, c8n2, c8n3]) "b3" = some (.soap12 c8n3) := by
  refine ⟨?_, ?_, ?_⟩
  · have := claim_C8 c8m11 c8m12 [c8n1, c8n2, c8n3] (by decide) c8n1 (by decide)
    simpa [c8n1, c8m11, c8m12] using this
  · have := claim_C8 c8m11 c8m12 [c8n1, c8n2, c8n3] (by decide) c8n2 (by decide)
    simpa [c8n2, c8m11, c8m12] using this
  · have := claim_C8 c8m11 c8m12 [c8n1, c8n2, c8n3] (by decide) c8n3 (by decide)
    simpa [c8n3, c8m11, c8m12] using this

/-! ## parse_types lemmas -/

theorem alookup_map_pairs {α β : Type} (key : α → String) (val : α → β) :
    ∀ (l : List α) (f : α), f ∈ l → (l.map key).Nodup →
      alookup (l.map fun a => (key a, val a)) (key f) = some (val f) := by
  intro l
  induction l with
  | nil => intro f hf; cases hf
  | cons a rest ih =>
    intro f hf hnd
    simp only [List.map_cons, List.nodup_cons] at hnd
    rcases List.mem_cons.mp hf with heq | hrest
    · subst heq
      simp [alookup]
    · by_cases hk : key a = key f
      · exact absurd (hk ▸ List.mem_map_of_mem key hrest) hnd.1
      · simp only [List.map_cons, alookup, if_neg hk]
        exact ih f hrest hnd.2

/-- The registry half of `parse_types`: with fresh, pairwise-distinct
synthetic keys, each fragment is registered (in rewritten form) under
`'intschema+' + targetNamespace`. -/
theorem parse_types_registry (w : World) (frags : List SchemaFragment)
    (hne : frags ≠ [])
    (hnd : (frags.map fun f => "intschema+" ++ pyStr f.targetNamespace).Nodup)
    (f : SchemaFragment) (hf : f ∈ frags) :
    alookup (parse_types w (some frags)).1.schema_references
        ("intschema+" ++ pyStr f.targetNamespace) = some (rewriteFragment f) := by
  cases frags with
  | nil => exact absurd rfl hne
  | cons f₀ rest =>
    show alookup (aupdate w.schema_references
      ((f₀ :: rest).map fun g => ("intschema+" ++ pyStr g.targetNamespace, rewriteFragment g)))
      ("intschema+" ++ pyStr f.targetNamespace) = some (rewriteFragment f)
    have hkeys : akeys ((f₀ :: rest).map
        fun g => ("intschema+" ++ pyStr g.targetNamespace, rewriteFragment g)) =
        (f₀ :: rest).map fun g => "intschema+" ++ pyStr g.targetNamespace := by
      simp [akeys, List.map_map]
    rw [alookup_aupdate _ _ (by rw [hkeys]; exact hnd) w.schema_references]
    rw [alookup_map_pairs (fun g => "intschema+" ++ pyStr g.targetNamespace)
      rewriteFragment (f₀ :: rest) f hf hnd]

/-- Counterexample to C7 as stated: this import carries a `schemaLocation`
attribute, yet `parse_types` rewrites it (the code tests Python truthiness,
not presence, so an empty string is not left unchanged), and the fragment
registered under `intschema+urn:s` holds the rewritten import. -/
theorem claim_C7_counterexample :
    c7imp.schemaLocation = some ""
    ∧ alookup (parse_types emptyWorld (some [c7frag])).1.schema_references "intschema+urn:s"
        = some ⟨some "urn:s", [⟨true, some "urn:x", some "intschema+urn:x"⟩]⟩
    ∧ (rewriteImport c7imp).schemaLocation ≠ c7imp.schemaLocation := by
  refine ⟨rfl, ?_, by decide⟩
  decide

/-- C7 (amended): fragments are registered under `'intschema+' +
targetNamespace` in their rewritten form; a 2001 `xsd:import` whose
`schemaLocation` is absent or empty gets the synthetic location
`'intschema+' + namespace`; an import with a non-empty `schemaLocation`,
or one outside the 2001 schema namespace, is untouched; and the payload
schema is built from the first fragment (rewritten). -/
theorem claim_C7 (w : World) (frags : List SchemaFragment)
    (hne : frags ≠ [])
    (hnd : (frags.map fun f => "intschema+" ++ pyStr f.targetNamespace).Nodup) :
    (∀ f ∈ frags,
      alookup (parse_types w (some frags)).1.schema_references
        ("intschema+" ++ pyStr f.targetNamespace) = some (rewriteFragment f))
    ∧ (∀ imp : XsdImport, imp.is2001 = true →
        (imp.schemaLocation = none ∨ imp.schemaLocation = some "") →
        (rewriteImport imp).schemaLocation = some ("intschema+" ++ pyStr imp.ns))
    ∧ (∀ (imp : XsdImport) (s : String), imp.schemaLocation = some s → s ≠ "" →
        rewriteImport imp = imp)
    ∧ (∀ imp : XsdImport, imp.is2001 = false → rewriteImport imp = imp)
    ∧ (∀ f₀ rest, frags = f₀ :: rest →
        (parse_types w (some frags)).2 = some (rewriteFragment f₀)) := by
  refine ⟨fun f hf => parse_types_registry w frags hne hnd f hf, ?_, ?_, ?_, ?_⟩
  · intro imp h2001 hloc
    unfold rewriteImport
    rw [if_pos ⟨h2001, hloc⟩]
  · intro imp s hs hne'
    unfold rewriteImport
    rw [if_neg]
    rintro ⟨_, hloc | hloc⟩ <;> rw [hs] at hloc
    · cases hloc
    · exact hne' (by injection hloc)
  · intro imp h2001
    unfold rewriteImport
    rw [if_neg]
    rintro ⟨h, _⟩
    rw [h2001] at h
    cases h
  · intro f₀ rest hfr
    subst hfr
    rfl

/-- Witness for C7 at a concrete input: two fragments; the first contains
an absent-location 2001 import (rewritten), a located import (kept) and a
1999 import (kept); the registry holds both rewritten fragments and the
schema is built from the first. -/
theorem claim_C7_witness :
    (([⟨some "urn:s1", [⟨true, some "urn:i", none⟩, ⟨true, some "urn:j", some "real.xsd"⟩,
        ⟨false, some "urn:k", none⟩]⟩, ⟨some "urn:s2", []⟩] : List SchemaFragment) ≠ []
      ∧ ((([⟨some "urn:s1", [⟨true, some "urn:i", none⟩, ⟨true, some "urn:j", some "real.xsd"⟩,
          ⟨false, some "urn:k", none⟩]⟩, ⟨some "urn:s2", []⟩] : List SchemaFragment).map
          fun f => "intschema+" ++ pyStr f.targetNamespace).Nodup))
    ∧ alookup (parse_types emptyWorld
        (some [⟨some "urn:s1", [⟨true, some "urn:i", none⟩, ⟨true, some "urn:j", some "real.xsd"⟩,
          ⟨false, some "urn:k", none⟩]⟩, ⟨some "urn:s2", []⟩])).1.schema_references
        "intschema+urn:s1"
        = some ⟨some "urn:s1", [⟨true, some "urn:i", some "intschema+urn:i"⟩,
            ⟨true, some "urn:j", some "real.xsd"⟩, ⟨false, some "urn:k", none⟩]⟩ := by
  constructor
  · exact ⟨by decide, by decide⟩
  · have h := (claim_C7 emptyWorld
      [⟨some "urn:s1", [⟨true, some "urn:i", none⟩, ⟨true, some "urn:j", some "real.xsd"⟩,
        ⟨false, some "urn:k", none⟩]⟩, ⟨some "urn:s2", []⟩] (by decide) (by decide)).1
      ⟨some "urn:s1", [⟨true, some "urn:i", none⟩, ⟨true, some "urn:j", some "real.xsd"⟩,
        ⟨false, some "urn:k", none⟩]⟩ (by decide)
    have hrw : rewriteFragment ⟨some "urn:s1", [⟨true, some "urn:i", none⟩,
        ⟨true, some "urn:j", some "real.xsd"⟩, ⟨false, some "urn:k", none⟩]⟩
        = ⟨some "urn:s1", [⟨true, some "urn:i", some "intschema+urn:i"⟩,
            ⟨true, some "urn:j", some "real.xsd"⟩, ⟨false, some "urn:k", none⟩]⟩ := by decide
    rw [← hrw]
    exact h

/-! ## resolve_imports: imports are only ever cleared -/

theorem list_set_getD {α : Type} [Inhabited α] (l : List α) :
    ∀ i : Nat, l.set i (l.getD i default) = l := by
  induction l with
  | nil => intro i; rfl
  | cons a rest ih =>
    intro i
    cases i with
    | zero => rfl
    | succ j => rw [List.getD_cons_succ, List.set_cons_succ, ih j]

theorem defs_eta_imports (d : Defs) (h : d.imports = []) :
    ({ d with imports := [] } : Defs) = d := by
  cases d
  simp_all

theorem getDefs_setDefs_oob (w : World) (x : Nat) (d : Defs) (hlen : ¬ x < w.store.length) :
    ∀ y, getDefs (setDefs w x d) y = getDefs w y := by
  intro y
  unfold setDefs getDefs
  rw [List.set_eq_of_length_le (Nat.le_of_not_lt hlen)]

theorem getDefs_oob_default (w : World) (x : Nat) (hlen : ¬ x < w.store.length) :
    getDefs w x = default := by
  unfold getDefs
  rw [List.getD_eq_getElem?_getD, List.getElem?_eq_none (Nat.le_of_not_lt hlen)]
  rfl

theorem mergeStep_imports_all (w : World) (x : Nat) (ns : Option String) (o : Nat)
    (w' : World) (h : mergeStep w x ns o = .ok w') :
    ∀ d, (getDefs w' d).imports = (getDefs w d).imports := by
  have hreg : (olookup w.registry ns).isSome = true := by
    by_contra hcon
    rw [mergeStep_eq_err w x ns o (Bool.eq_false_iff.mpr hcon)] at h
    cases h
  rw [mergeStep_eq_ok w x ns o hreg] at h
  cases h
  intro d
  by_cases hd : d = x
  · subst hd
    by_cases hlen : d < w.store.length
    · rw [mergeResult_getDefs_self w d ns o hlen, mergedDefs_imports]
    · unfold mergeResult
      have heq : getDefs { setDefs w d (mergedDefs (getDefs w d) (getDefs w o) ns) with
          trace := w.trace ++ [.mergeEvt d ns o] } d =
          getDefs (setDefs w d (mergedDefs (getDefs w d) (getDefs w o) ns)) d := rfl
      rw [heq, getDefs_setDefs_oob w d _ hlen]
  · rw [mergeResult_getDefs_ne w x d ns o hd]

theorem mergeAll_imports_all (imps : List (Option String × Nat)) :
    ∀ (w w' : World) (x : Nat), mergeAll w x imps = .ok w' →
    ∀ d, (getDefs w' d).imports = (getDefs w d).imports := by
  induction imps with
  | nil =>
    intro w w' x h d
    simp only [mergeAll] at h
    cases h
    rfl
  | cons p rest ih =>
    intro w w' x h d
    simp only [mergeAll] at h
    cases hstep : mergeStep w x p.1 p.2 with
    | error e => rw [hstep] at h; cases h
    | ok w₁ =>
      rw [hstep] at h
      rw [ih w₁ w' x h d, mergeStep_imports_all w x p.1 p.2 w₁ hstep d]

theorem setDefs_imports_clear (w : World) (x : Nat) :
    ∀ d, (getDefs (setDefs w x { getDefs w x with imports := [] }) d).imports =
      (getDefs w d).imports ∨
      (getDefs (setDefs w x { getDefs w x with imports := [] }) d).imports = [] := by
  intro d
  by_cases hd : d = x
  · subst hd
    by_cases hlen : d < w.store.length
    · right
      rw [getDefs_setDefs_self w d _ hlen]
    · left
      rw [getDefs_setDefs_oob w d _ hlen]
  · left
    rw [getDefs_setDefs_ne w x d _ hd]

theorem resolveList_imports_aux (recur : World → Nat → Except Err World)
    (hrec : ∀ w y w', recur w y = .ok w' →
      ∀ d, (getDefs w' d).imports = (getDefs w d).imports ∨ (getDefs w' d).imports = []) :
    ∀ (l : List (Option String × Nat)) (w w' : World),
      resolveList recur w l = .ok w' →
      ∀ d, (getDefs w' d).imports = (getDefs w d).imports ∨ (getDefs w' d).imports = [] := by
  intro l
  induction l with
  | nil =>
    intro w w' h d
    simp only [resolveList] at h
    cases h
    left; rfl
  | cons p rest ih =>
    intro w w' h d
    simp only [resolveList] at h
    cases hstep : recur w p.2 with
    | error e => rw [hstep] at h; cases h
    | ok w₁ =>
      rw [hstep] at h
      rcases ih w₁ w' h d with h₁ | h₁
      · rw [h₁]
        exact hrec w p.2 w₁ hstep d
      · right; exact h₁

theorem resolveImports_imports :
    ∀ (fuel : Nat) (w : World) (x : Nat) (w' : World),
      resolveImports fuel w x = .ok w' →
      (∀ d, (getDefs w' d).imports = (getDefs w d).imports ∨ (getDefs w' d).imports = []) ∧
      (getDefs w' x).imports = [] := by
  intro fuel
  induction fuel with
  | zero => intro w x w' h; cases h
  | succ n ih =>
    intro w x w' h
    simp only [resolveImports, resolveBody] at h
    cases hmerge : mergeAll w x (getDefs w x).imports with
    | error e => rw [hmerge] at h; cases h
    | ok w₁ =>
      rw [hmerge] at h
      have h' : (match resolveList (resolveImports n)
          (setDefs w₁ x { getDefs w₁ x with imports := [] }) (getDefs w x).imports with
        | Except.error e => Except.error e
        | Except.ok w => Except.ok (resolvePhase w x)) = Except.ok w' := h
      cases hlist : resolveList (resolveImports n)
          (setDefs w₁ x { getDefs w₁ x with imports := [] }) (getDefs w x).imports with
      | error e => rw [hlist] at h'; cases h'
      | ok w₃ =>
        rw [hlist] at h'
        cases h'
        have hrec : ∀ w y w', resolveImports n w y = .ok w' →
            ∀ d, (getDefs w' d).imports = (getDefs w d).imports ∨
              (getDefs w' d).imports = [] :=
          fun w y w' hy => (ih w y w' hy).1
        have hl := resolveList_imports_aux (resolveImports n) hrec
          (getDefs w x).imports (setDefs w₁ x { getDefs w₁ x with imports := [] }) w₃ hlist
        have hphase : ∀ d, (getDefs (resolvePhase w₃ x) d).imports =
            (getDefs w₃ d).imports := fun d => rfl
        have hx2 : (getDefs (setDefs w₁ x { getDefs w₁ x with imports := [] }) x).imports
            = [] := by
          by_cases hlen : x < w₁.store.length
          · rw [getDefs_setDefs_self w₁ x _ hlen]
          · rw [getDefs_setDefs_oob w₁ x _ hlen, getDefs_oob_default w₁ x hlen]
            rfl
        constructor
        · intro d
          rw [hphase d]
          rcases hl d with h₁ | h₁
          · rw [h₁]
            rcases setDefs_imports_clear w₁ x d with h₂ | h₂
            · rw [h₂, mergeAll_imports_all (getDefs w x).imports w w₁ x hmerge d]
              left; rfl
            · right; exact h₂
          · right; exact h₁
        · rw [hphase x]
          rcases hl x with h₁ | h₁
          · rw [h₁]; exact hx2
          · exact h₁

/-- C5: after a successful `resolve_imports` run, calling it again on the
same root is inert: the pending imports were snapshotted and cleared, so
the repeat call succeeds with the entire heap (all four entity maps of
every `Definitions`), the registry, the schema registry and the fetch log
unchanged — no document is fetched or parsed again. -/
theorem claim_C5 (fuel : Nat) (w : World) (root : Nat) (w' : World)
    (h : resolveImports fuel w root = .ok w') (fuel₂ : Nat) :
    resolveImports (fuel₂ + 1) w' root = .ok (resolvePhase w' root)
    ∧ (resolvePhase w' root).store = w'.store
    ∧ (resolvePhase w' root).fetchLog = w'.fetchLog
    ∧ (resolvePhase w' root).registry = w'.registry
    ∧ (resolvePhase w' root).schema_references = w'.schema_references := by
  have hclear : (getDefs w' root).imports = [] := (resolveImports_imports fuel w root w' h).2
  refine ⟨?_, rfl, rfl, rfl, rfl⟩
  have hset : setDefs w' root { getDefs w' root with imports := [] } = w' := by
    unfold setDefs
    rw [defs_eta_imports (getDefs w' root) hclear]
    show { w' with store := w'.store.set root (w'.store.getD root default) } = w'
    rw [list_set_getD w'.store root]
  show resolveBody (resolveImports fuel₂) w' root = .ok (resolvePhase w' root)
  unfold resolveBody
  rw [hclear]
  show (match resolveList (resolveImports fuel₂)
      (setDefs w' root { getDefs w' root with imports := [] }) [] with
    | Except.error e => Except.error e
    | Except.ok w => Except.ok (resolvePhase w root)) = .ok (resolvePhase w' root)
  rw [hset]
  rfl

/-- Witness for C5 at a concrete input: a second `resolve_imports` call on
the resolved root changes none of the maps and fetches nothing. -/
theorem claim_C5_witness :
    resolveImports 1 c5w 0 = .ok (exOk (resolveImports 1 c5w 0))
    ∧ resolveImports 3 (exOk (resolveImports 1 c5w 0)) 0 =
        .ok (resolvePhase (exOk (resolveImports 1 c5w 0)) 0)
    ∧ (resolvePhase (exOk (resolveImports 1 c5w 0)) 0).store =
        (exOk (resolveImports 1 c5w 0)).store
    ∧ (resolvePhase (exOk (resolveImports 1 c5w 0)) 0).fetchLog =
        (exOk (resolveImports 1 c5w 0)).fetchLog :=
  ⟨by decide,
    (claim_C5 1 c5w 0 (exOk (resolveImports 1 c5w 0)) (by decide) 2).1,
    (claim_C5 1 c5w 0 (exOk (resolveImports 1 c5w 0)) (by decide) 2).2.1,
    (claim_C5 1 c5w 0 (exOk (resolveImports 1 c5w 0)) (by decide) 2).2.2.1⟩

/-- Counterexample to C9 as stated: an import declaration missing its
`namespace` attribute does not make the load fail with any error at all —
the whole load succeeds. -/
theorem claim_C9_counterexample :
    (c9docA.importNodes.map ImportNode.ns) = [none]
    ∧ isOk (loadWSDL c9env 10 "a.wsdl") = true := by
  refine ⟨rfl, ?_⟩
  decide

/-- C9 (amended): an import missing its `location` attribute aborts the
load with a `TypeError` (raised by the membership test on `None`); an
unretrievable imported document aborts the load with the
loader's fetch error; in both cases no model is produced.  A missing
`namespace` attribute, by contrast, is not rejected: the load can even
succeed (the import is recorded under the missing key). -/
theorem claim_C9 :
    (∀ (env : Env) (build : World → String → Except Err (Nat × World)) (x : Nat)
        (selfLoc : String) (w : World) (ns : Option String) (rest : List ImportNode),
      processImports env build x selfLoc w (⟨none, ns⟩ :: rest) = .error .typeError)
    ∧ (∀ (env : Env) (fuel : Nat) (w : World) (loc : String), alookup env loc = none →
        buildDef env (fuel + 1) w loc = .error (.fetchError loc))
    ∧ isOk (loadWSDL c9env 10 "a.wsdl") = true := by
  refine ⟨fun env build x selfLoc w ns rest => rfl, ?_, by decide⟩
  intro env fuel w loc h
  show buildBody env (buildDef env fuel) w loc = .error (.fetchError loc)
  unfold buildBody
  rw [h]

/-- Witness for C9 at concrete inputs: a missing-location import raises the
`TypeError`, and an unresolvable location raises the fetch error. -/
theorem claim_C9_witness :
    processImports [] (fun w _ => .ok (0, w)) 0 "a.wsdl" emptyWorld [⟨none, some "urn:b"⟩]
      = .error .typeError
    ∧ alookup ([] : Env) "nowhere.wsdl" = none
    ∧ buildDef [] 5 emptyWorld "nowhere.wsdl" = .error (.fetchError "nowhere.wsdl") :=
  ⟨claim_C9.1 [] (fun w _ => .ok (0, w)) 0 "a.wsdl" emptyWorld (some "urn:b") [],
   rfl, claim_C9.2.1 [] 4 emptyWorld "nowhere.wsdl" rfl⟩

/-! ## mergedDefs map projections -/

theorem mergedDefs_messages (self other : Defs) (ns : Option String) :
    (mergedDefs self other ns).messages =
      aupdate self.messages (filter_namespace other.messages ns) := by
  unfold mergedDefs
  cases h : self.schema <;> simp [h]

theorem mergedDefs_port_types (self other : Defs) (ns : Option String) :
    (mergedDefs self other ns).port_types =
      aupdate self.port_types (filter_namespace other.port_types ns) := by
  unfold mergedDefs
  cases h : self.schema <;> simp [h]

theorem mergedDefs_bindings (self other : Defs) (ns : Option String) :
    (mergedDefs self other ns).bindings =
      aupdate self.bindings (filter_namespace other.bindings ns) := by
  unfold mergedDefs
  cases h : self.schema <;> simp [h]

theorem mergedDefs_services (self other : Defs) (ns : Option String) :
    (mergedDefs self other ns).services =
      aupdate self.services (filter_namespace other.services ns) := by
  unfold mergedDefs
  cases h : self.schema <;> simp [h]

/-! ## Symbolic execution of resolve_imports frames -/

/-- A `resolve_imports` frame with no pending imports: clear (a no-op on
the imports), recurse into nothing, resolve own entities. -/
theorem resolveBody_empty (recur : World → Nat → Except Err World) (w : World) (x : Nat)
    (hsnap : (getDefs w x).imports = []) :
    resolveBody recur w x =
      .ok (resolvePhase (setDefs w x { getDefs w x with imports := [] }) x) := by
  unfold resolveBody
  rw [hsnap]
  show (match (Except.ok w : Except Err World) with
    | Except.error e => Except.error e
    | Except.ok w =>
      match resolveList recur (setDefs w x { getDefs w x with imports := [] }) [] with
      | Except.error e => Except.error e
      | Except.ok w => Except.ok (resolvePhase w x)) = _
  rfl

/-- A `resolve_imports` frame with exactly one pending import: merge it,
clear, recurse into it, resolve own entities. -/
theorem resolveBody_single (recur : World → Nat → Except Err World) (w : World) (x : Nat)
    (ns : Option String) (o : Nat) (w₂ : World)
    (hsnap : (getDefs w x).imports = [(ns, o)])
    (hreg : (olookup w.registry ns).isSome = true)
    (hrec : recur (setDefs (mergeResult w x ns o) x
      { getDefs (mergeResult w x ns o) x with imports := [] }) o = .ok w₂) :
    resolveBody recur w x = .ok (resolvePhase w₂ x) := by
  unfold resolveBody
  rw [hsnap]
  show (match mergeAll w x [(ns, o)] with
    | Except.error e => Except.error e
    | Except.ok w' =>
      match resolveList recur (setDefs w' x { getDefs w' x with imports := [] }) [(ns, o)] with
      | Except.error e => Except.error e
      | Except.ok w => Except.ok (resolvePhase w x)) = _
  have hmerge : mergeAll w x [(ns, o)] = .ok (mergeResult w x ns o) := by
    show (match mergeStep w x ns o with
      | Except.error e => Except.error e
      | Except.ok w' => mergeAll w' x []) = _
    rw [mergeStep_eq_ok w x ns o hreg]
    rfl
  rw [hmerge]
  show (match resolveList recur (setDefs (mergeResult w x ns o) x
      { getDefs (mergeResult w x ns o) x with imports := [] }) [(ns, o)] with
    | Except.error e => Except.error e
    | Except.ok w => Except.ok (resolvePhase w x)) = _
  have hlist : resolveList recur (setDefs (mergeResult w x ns o) x
      { getDefs (mergeResult w x ns o) x with imports := [] }) [(ns, o)] = .ok w₂ := by
    show (match recur (setDefs (mergeResult w x ns o) x
        { getDefs (mergeResult w x ns o) x with imports := [] }) o with
      | Except.error e => Except.error e
      | Except.ok w' => resolveList recur w' []) = _
    rw [hrec]
    rfl
  rw [hlist]

theorem getDefs_resolvePhase (w : World) (x y : Nat) :
    getDefs (resolvePhase w x) y = getDefs w y := rfl

theorem akeys_filter_namespace_nodup (m : List (String × Entity)) (ns : Option String)
    (h : (akeys m).Nodup) : (akeys (filter_namespace m ns)).Nodup := by
  unfold filter_namespace
  exact h.sublist
    (akeys_filter_sublist (fun s => strStartsWith s ("\x7b" ++ pyStr ns ++ "\x7d")) m)

theorem mergeResult_length (w : World) (x : Nat) (ns : Option String) (o : Nat) :
    (mergeResult w x ns o).store.length = w.store.length := by
  show (setDefs w x (mergedDefs (getDefs w x) (getDefs w o) ns)).store.length = _
  exact setDefs_length w x _

/-- C1: non-transitive visibility on a chain A imports B imports C.  After
resolving A, an entity `x` that C declares in its own namespace is absent
from A's merged message map, while an entity keyed in B's declared import
namespace reaches A exactly when B's own map holds it: the merge copies
only entries whose qualified-name key starts with the braced import
namespace. -/
theorem claim_C1 (nsA nsB nsC : String) (A B C : Defs) (x : String) (fuel : Nat)
    (hAB : nsA ≠ nsB) (hAC : nsA ≠ nsC) (hBC : nsB ≠ nsC)
    (hbB : ('}' : Char) ∉ nsB.data) (hbC : ('}' : Char) ∉ nsC.data)
    (hAimp : A.imports = [(some nsB, 1)])
    (hBimp : B.imports = [(some nsC, 2)])
    (hCimp : C.imports = [])
    (hBnd : (akeys B.messages).Nodup)
    (hkA : alookup A.messages ("\x7b" ++ nsC ++ "\x7d" ++ x) = none)
    (hkBA : alookup A.messages ("\x7b" ++ nsB ++ "\x7d" ++ x) = none) :
    ∃ w', resolveImports (fuel + 3)
        ⟨[A, B, C], [(some nsA, 0), (some nsB, 1), (some nsC, 2)], [], [], []⟩ 0 = .ok w'
      ∧ alookup (getDefs w' 0).messages ("\x7b" ++ nsC ++ "\x7d" ++ x) = none
      ∧ alookup (getDefs w' 0).messages ("\x7b" ++ nsB ++ "\x7d" ++ x)
          = alookup B.messages ("\x7b" ++ nsB ++ "\x7d" ++ x) := by
  set w0 : World :=
    ⟨[A, B, C], [(some nsA, 0), (some nsB, 1), (some nsC, 2)], [], [], []⟩ with hw0
  have hA0 : getDefs w0 0 = A := rfl
  have hB0 : getDefs w0 1 = B := rfl
  have hC0 : getDefs w0 2 = C := rfl
  have hreg1 : (olookup w0.registry (some nsB)).isSome = true := by
    show (olookup [(some nsA, 0), (some nsB, 1), (some nsC, 2)] (some nsB)).isSome = true
    simp [olookup, hAB]
  -- frame A intermediate worlds
  set w1 : World := mergeResult w0 0 (some nsB) 1 with hw1
  set w2 : World := setDefs w1 0 { getDefs w1 0 with imports := [] } with hw2
  have hlen0 : (0 : Nat) < w0.store.length := by
    show (0 : Nat) < 3
    decide
  have hB2 : getDefs w2 1 = B := by
    rw [hw2, getDefs_setDefs_ne w1 0 1 _ (by decide), hw1,
      mergeResult_getDefs_ne w0 0 1 (some nsB) 1 (by decide), hB0]
  have hreg2 : (olookup w2.registry (some nsC)).isSome = true := by
    have : w2.registry = w0.registry := by
      rw [hw2]
      show w1.registry = w0.registry
      rw [hw1, mergeResult_registry]
    rw [this]
    show (olookup [(some nsA, 0), (some nsB, 1), (some nsC, 2)] (some nsC)).isSome = true
    simp [olookup, hAC, hBC]
  -- frame B intermediate worlds
  set w3 : World := mergeResult w2 1 (some nsC) 2 with hw3
  set w4 : World := setDefs w3 1 { getDefs w3 1 with imports := [] } with hw4
  have hC4 : getDefs w4 2 = C := by
    rw [hw4, getDefs_setDefs_ne w3 1 2 _ (by decide), hw3,
      mergeResult_getDefs_ne w2 1 2 (some nsC) 2 (by decide), hw2,
      getDefs_setDefs_ne w1 0 2 _ (by decide), hw1,
      mergeResult_getDefs_ne w0 0 2 (some nsB) 1 (by decide), hC0]
  -- innermost frame: C has no imports
  set w5 : World := resolvePhase (setDefs w4 2 { getDefs w4 2 with imports := [] }) 2 with hw5
  have hframeC : resolveImports (fuel + 1) w4 2 = .ok w5 := by
    show resolveBody (resolveImports fuel) w4 2 = .ok w5
    rw [resolveBody_empty (resolveImports fuel) w4 2 (by rw [hC4, hCimp]), hw5]
  -- frame B
  set w6 : World := resolvePhase w5 1 with hw6
  have hframeB : resolveImports (fuel + 2) w2 1 = .ok w6 := by
    show resolveBody (resolveImports (fuel + 1)) w2 1 = .ok w6
    rw [resolveBody_single (resolveImports (fuel + 1)) w2 1 (some nsC) 2 w5
      (by rw [hB2, hBimp]) hreg2 (by rw [← hw3, ← hw4]; exact hframeC), hw6]
  -- frame A
  set wF : World := resolvePhase w6 0 with hwF
  have hframeA : resolveImports (fuel + 3) w0 0 = .ok wF := by
    show resolveBody (resolveImports (fuel + 2)) w0 0 = .ok wF
    rw [resolveBody_single (resolveImports (fuel + 2)) w0 0 (some nsB) 1 w6
      (by rw [hA0, hAimp]) hreg1 (by rw [← hw1, ← hw2]; exact hframeB), hwF]
  refine ⟨wF, hframeA, ?_, ?_⟩ <;> {
    have hfinal : getDefs wF 0 = { mergedDefs A B (some nsB) with imports := [] } := by
      rw [hwF, getDefs_resolvePhase, hw6, getDefs_resolvePhase, hw5, getDefs_resolvePhase,
        getDefs_setDefs_ne w4 2 0 _ (by decide), hw4,
        getDefs_setDefs_ne w3 1 0 _ (by decide), hw3,
        mergeResult_getDefs_ne w2 1 0 (some nsC) 2 (by decide), hw2,
        getDefs_setDefs_self w1 0 _ (by rw [hw1, mergeResult_length]; exact hlen0), hw1,
        mergeResult_getDefs_self w0 0 (some nsB) 1 hlen0, hA0, hB0]
    have hmsg : (getDefs wF 0).messages =
        aupdate A.messages (filter_namespace B.messages (some nsB)) := by
      rw [hfinal]
      show (mergedDefs A B (some nsB)).messages = _
      exact mergedDefs_messages A B (some nsB)
    rw [hmsg, alookup_aupdate _ _ (akeys_filter_namespace_nodup B.messages (some nsB) hBnd),
      alookup_filter_namespace]
    first
      | { rw [if_neg ?hne, hkA]
          case hne =>
            show ¬ (strStartsWith ("\x7b" ++ nsC ++ "\x7d" ++ x)
              ("\x7b" ++ pyStr (some nsB) ++ "\x7d") = true)
            show ¬ (strStartsWith ("\x7b" ++ nsC ++ "\x7d" ++ x)
              ("\x7b" ++ nsB ++ "\x7d") = true)
            rw [strStartsWith_brace nsB nsC x hbB hbC]
            exact hBC }
      | { rw [if_pos ?hpos]
          case hpos =>
            show strStartsWith ("\x7b" ++ nsB ++ "\x7d" ++ x)
              ("\x7b" ++ pyStr (some nsB) ++ "\x7d") = true
            show strStartsWith ("\x7b" ++ nsB ++ "\x7d" ++ x)
              ("\x7b" ++ nsB ++ "\x7d") = true
            rw [strStartsWith_brace nsB nsB x hbB hbB]
          cases hb : alookup B.messages ("\x7b" ++ nsB ++ "\x7d" ++ x) with
          | some v => rfl
          | none => rw [hkBA] }
  }

/-- Witness for C1 at a concrete chain. -/
theorem claim_C1_witness :
    ∃ w', resolveImports (10 + 3)
        ⟨[c1A, c1B, c1C], [(some "urn:a", 0), (some "urn:b", 1), (some "urn:c", 2)],
          [], [], []⟩ 0 = .ok w'
      ∧ alookup (getDefs w' 0).messages ("\x7b" ++ "urn:c" ++ "\x7d" ++ "Echo") = none
      ∧ alookup (getDefs w' 0).messages ("\x7b" ++ "urn:b" ++ "\x7d" ++ "Echo")
          = alookup c1B.messages ("\x7b" ++ "urn:b" ++ "\x7d" ++ "Echo") :=
  claim_C1 "urn:a" "urn:b" "urn:c" c1A c1B c1C "Echo" 10
    (by decide) (by decide) (by decide) (by decide) (by decide)
    rfl rfl rfl (by decide) (by decide) (by decide)

/-- Counterexample to C3 as stated: in the cycle A⇄B, the root's message
receives `resolve(A)` twice — once in the re-entrant `resolve_imports`
frame reached through B, and once in the outer frame. -/
theorem claim_C3_counterexample :
    ((loadedWorld (loadWSDL c3env 10 "a.wsdl")).trace.filter
      (fun e => e = Event.resolveEvt .message (.plain "mA") 0)).length = 2
    ∧ ¬ ((loadedWorld (loadWSDL c3env 10 "a.wsdl")).trace.filter
      (fun e => e = Event.resolveEvt .message (.plain "mA") 0)).length = 1 := by
  constructor <;> decide

/-- C3 (amended): when no `Definitions` is reachable twice (here the chain
A→B→C), every entity of every `Definitions` receives `resolve` with its
owner exactly once, and only after the owner's merges; when the graph is
cyclic, `resolve_imports` re-enters and entities are resolved once per
frame (more than once).  The full trace of the chain load: both merges
first, then each entity resolved exactly once per map it sits in. -/
theorem claim_C3 :
    (loadedWorld (loadWSDL c3chainEnv 10 "a.wsdl")).trace =
      [.mergeEvt 0 (some "urn:b") 1, .mergeEvt 1 (some "urn:c") 2,
       .resolveEvt .message (.plain "mC") 2,
       .resolveEvt .message (.plain "mB") 1, .resolveEvt .message (.plain "mC") 1,
       .resolveEvt .message (.plain "mA") 0, .resolveEvt .message (.plain "mB") 0]
    ∧ ((loadedWorld (loadWSDL c3chainEnv 10 "a.wsdl")).trace.filter
        (fun ev => match ev with
          | .resolveEvt _ _ _ => true
          | _ => false)).Nodup
    ∧ ((loadedWorld (loadWSDL c3env 10 "a.wsdl")).trace.filter
        (fun ev => ev = Event.resolveEvt .message (.plain "mA") 0)).length = 2 := by
  refine ⟨by decide, by decide, by decide⟩

/-- Counterexample to the `exactly when` clause of C10: `b.wsdl` is fetched
and its declared targetNamespace (`urn:b`) differs from the namespace
attribute (`urn:x`) of the import element that referenced it, yet every
merge of the load completes without error (the load succeeds), because an
unrelated document registered `urn:x`. -/
theorem claim_C10_counterexample :
    isOk (loadWSDL c10env 10 "a.wsdl") = true
    ∧ "b.wsdl" ∈ (loadedWorld (loadWSDL c10env 10 "a.wsdl")).fetchLog
    ∧ (alookup c10env "b.wsdl").map Document.targetNamespace = some (some "urn:b")
    ∧ c10docA.importNodes.head?.map ImportNode.ns = some (some "urn:x") := by
  refine ⟨by decide, by decide, by decide, by decide⟩

/-! ## Option-keyed dict lemmas -/

theorem okeys_any_iff {β : Type} (m : List (Option String × β)) (k : Option String) :
    (m.any fun p => p.1 = k) = true ↔ k ∈ okeys m := by
  induction m with
  | nil => simp [okeys]
  | cons p rest ih =>
    simp only [List.any_cons, Bool.or_eq_true, decide_eq_true_eq, okeys, List.map_cons,
      List.mem_cons]
    rw [ih]
    constructor
    · rintro (h | h)
      · exact Or.inl h.symm
      · exact Or.inr h
    · rintro (h | h)
      · exact Or.inl h.symm
      · exact Or.inr h

theorem olookup_isSome_iff {β : Type} (m : List (Option String × β)) (k : Option String) :
    (olookup m k).isSome = true ↔ k ∈ okeys m := by
  induction m with
  | nil => simp [olookup, okeys]
  | cons p rest ih =>
    by_cases hp : p.1 = k
    · simp [olookup, hp, okeys]
    · simp only [olookup, if_neg hp, okeys, List.map_cons, List.mem_cons]
      rw [ih]
      constructor
      · intro h
        exact Or.inr h
      · rintro (h | h)
        · exact absurd h.symm hp
        · exact h
    

theorem okeys_oupsert_fresh {β : Type} (m : List (Option String × β)) (k : Option String)
    (v : β) (h : k ∉ okeys m) : okeys (oupsert m k v) = okeys m ++ [k] := by
  unfold oupsert
  rw [if_neg]
  · simp [okeys]
  · intro hany
    exact h ((okeys_any_iff m k).mp hany)

theorem okeys_oupsert_hit {β : Type} (m : List (Option String × β)) (k : Option String)
    (v : β) (h : k ∈ okeys m) : okeys (oupsert m k v) = okeys m := by
  unfold oupsert
  rw [if_pos ((okeys_any_iff m k).mpr h)]
  unfold okeys
  rw [List.map_map]
  apply List.map_congr_left
  intro p _
  by_cases hp : p.1 = k <;> simp [hp]

theorem mem_okeys_oupsert {β : Type} (m : List (Option String × β)) (k k' : Option String)
    (v : β) : k' ∈ okeys (oupsert m k v) ↔ k' ∈ okeys m ∨ k' = k := by
  by_cases h : k ∈ okeys m
  · rw [okeys_oupsert_hit m k v h]
    constructor
    · exact Or.inl
    · rintro (hk | hk)
      · exact hk
      · exact hk ▸ h
  · rw [okeys_oupsert_fresh m k v h]
    simp

theorem mem_oupsert {β : Type} (m : List (Option String × β)) (k : Option String) (v : β) :
    ∀ p ∈ oupsert m k v, p ∈ m ∨ p = (k, v) := by
  unfold oupsert
  split
  · intro p hp
    simp only [List.mem_map] at hp
    obtain ⟨q, hq, hpq⟩ := hp
    by_cases hqk : q.1 = k
    · right
      rw [← hpq, if_pos hqk]
    · left
      rw [← hpq, if_neg hqk]
      exact hq
  · intro p hp
    rcases List.mem_append.mp hp with h | h
    · exact Or.inl h
    · right
      simpa using h

theorem oupsert_length_le {β : Type} (m : List (Option String × β)) (k : Option String)
    (v : β) : (oupsert m k v).length ≤ m.length + 1 := by
  unfold oupsert
  split <;> simp

/-! ## Filter-length lemmas -/

theorem filter_length_le_of_imp {α : Type} (l : List α) (p q : α → Bool)
    (himp : ∀ a, q a = true → p a = true) :
    (l.filter q).length ≤ (l.filter p).length := by
  induction l with
  | nil => simp
  | cons a rest ih =>
    by_cases hq : q a
    · rw [List.filter_cons_of_pos hq, List.filter_cons_of_pos (himp a hq)]
      simpa using ih
    · rw [List.filter_cons_of_neg (by simpa using hq)]
      by_cases hp : p a
      · rw [List.filter_cons_of_pos hp]
        exact le_trans ih (by simp)
      · rw [List.filter_cons_of_neg (by simpa using hp)]
        exact ih

theorem filter_length_lt_of_imp {α : Type} (l : List α) (p q : α → Bool)
    (himp : ∀ a, q a = true → p a = true)
    (a : α) (ha : a ∈ l) (hpa : p a = true) (hqa : q a = false) :
    (l.filter q).length < (l.filter p).length := by
  induction l with
  | nil => cases ha
  | cons b rest ih =>
    rcases List.mem_cons.mp ha with heq | hrest
    · subst heq
      rw [List.filter_cons_of_pos hpa, List.filter_cons_of_neg (by simp [hqa])]
      exact Nat.lt_succ_of_le (filter_length_le_of_imp rest p q himp)
    · by_cases hq : q b
      · rw [List.filter_cons_of_pos hq, List.filter_cons_of_pos (himp b hq)]
        simpa using ih hrest
      · rw [List.filter_cons_of_neg (by simpa using hq)]
        by_cases hp : p b
        · rw [List.filter_cons_of_pos hp]
          exact Nat.lt_succ_of_lt (ih hrest)
        · rw [List.filter_cons_of_neg (by simpa using hp)]
          exact ih hrest

theorem measureKeys_mono (env : Env) (K K' : List (Option String))
    (h : ∀ k ∈ K, k ∈ K') : measureKeys env K' ≤ measureKeys env K := by
  apply filter_length_le_of_imp
  intro a ha
  simp only [decide_eq_true_eq] at ha ⊢
  intro hmem
  exact ha (h a hmem)

theorem measureKeys_register (env : Env) (K : List (Option String)) (t : Option String)
    (ht : t ∈ envNamespaces env) (hfresh : t ∉ K) :
    measureKeys env (K ++ [t]) < measureKeys env K := by
  apply filter_length_lt_of_imp (envNamespaces env) _ _ ?himp t ht
  · simp [hfresh]
  · simp
  case himp =>
    intro a ha
    simp only [decide_eq_true_eq, List.mem_append, List.mem_singleton, not_or] at ha ⊢
    exact ha.1

theorem envNamespaces_mem (env : Env) (loc : String) (doc : Document)
    (h : alookup env loc = some doc) : doc.targetNamespace ∈ envNamespaces env := by
  unfold envNamespaces
  rw [List.mem_dedup]
  induction env with
  | nil => cases h
  | cons p rest ih =>
    by_cases hp : p.1 = loc
    · simp only [alookup, if_pos hp] at h
      cases h
      simp
    · simp only [alookup, if_neg hp] at h
      simp only [List.map_cons, List.mem_cons]
      exact Or.inr (ih h)

theorem envBudget_congr (l : List (String × Document)) (L : List String) (loc : String)
    (hall : ∀ p ∈ l, p.1 ≠ loc) : envBudget l (L ++ [loc]) = envBudget l L := by
  unfold envBudget
  induction l with
  | nil => rfl
  | cons p rest ih =>
    have hp : p.1 ≠ loc := hall p (by simp)
    have hrest : ∀ q ∈ rest, q.1 ≠ loc := fun q hq => hall q (by simp [hq])
    by_cases hmem : p.1 ∈ L
    · rw [List.filter_cons_of_neg (by simp [hmem]),
        List.filter_cons_of_neg (by simp [hmem])]
      exact ih hrest
    · rw [List.filter_cons_of_pos (by simp [hmem, hp]),
        List.filter_cons_of_pos (by simp [hmem])]
      simp only [List.map_cons, List.sum_cons]
      rw [ih hrest]

theorem envBudget_fetch (env : Env) (hnd : (env.map Prod.fst).Nodup)
    (L : List String) (loc : String) (doc : Document)
    (hdoc : alookup env loc = some doc) (hfresh : loc ∉ L) :
    envBudget env (L ++ [loc]) + doc.importNodes.length = envBudget env L := by
  induction env with
  | nil => cases hdoc
  | cons p rest ih =>
    simp only [List.map_cons, List.nodup_cons] at hnd
    by_cases hp : p.1 = loc
    · simp only [alookup, if_pos hp] at hdoc
      cases hdoc
      have hall : ∀ q ∈ rest, q.1 ≠ loc := by
        intro q hq hqloc
        exact hnd.1 (hp ▸ hqloc ▸ List.mem_map_of_mem Prod.fst hq)
      unfold envBudget
      rw [List.filter_cons_of_neg (by simp [hp]),
        List.filter_cons_of_pos (by simp [hp, hfresh])]
      simp only [List.map_cons, List.sum_cons]
      have := envBudget_congr rest L loc hall
      unfold envBudget at this
      rw [this]
      omega
    · simp only [alookup, if_neg hp] at hdoc
      unfold envBudget
      by_cases hmem : p.1 ∈ L
      · rw [List.filter_cons_of_neg (by simp [hmem]),
          List.filter_cons_of_neg (by simp [hmem])]
        exact ih hnd.2 hdoc
      · rw [List.filter_cons_of_pos (by simp [hmem, hp]),
          List.filter_cons_of_pos (by simp [hmem])]
        simp only [List.map_cons, List.sum_cons]
        have := ih hnd.2 hdoc
        unfold envBudget at this
        omega

/-! ## Heap extension lemmas -/

theorem getDefs_append_lt (w : World) (d : Defs) (i : Nat) (h : i < w.store.length) :
    getDefs { w with store := w.store ++ [d] } i = getDefs w i := by
  unfold getDefs
  exact List.getD_append w.store [d] default i h

theorem getDefs_append_last (w : World) (d : Defs) :
    getDefs { w with store := w.store ++ [d] } w.store.length = d := by
  unfold getDefs
  rw [List.getD_eq_getElem?_getD]
  rw [List.getElem?_append_right (Nat.le_refl _)]
  simp

theorem getDefs_append_gt (w : World) (d : Defs) (i : Nat) (h : w.store.length + 1 ≤ i) :
    getDefs { w with store := w.store ++ [d] } i = default := by
  unfold getDefs
  rw [List.getD_eq_getElem?_getD, List.getElem?_eq_none (by simp; omega)]
  rfl

theorem getDefs_lt_mem (w : World) (i : Nat) (h : i < w.store.length) :
    getDefs w i ∈ w.store := by
  unfold getDefs
  rw [List.getD_eq_getElem?_getD, List.getElem?_eq_getElem h]
  exact List.getElem_mem h

theorem mem_map_tns_iff (w : World) (t : Option String) :
    t ∈ w.store.map Defs.target_namespace ↔
      ∃ i, i < w.store.length ∧ (getDefs w i).target_namespace = t := by
  rw [List.mem_map]
  constructor
  · rintro ⟨d, hd, hdt⟩
    obtain ⟨i, hi, hget⟩ := List.mem_iff_getElem.mp hd
    refine ⟨i, hi, ?_⟩
    unfold getDefs
    rw [List.getD_eq_getElem?_getD, List.getElem?_eq_getElem hi, hget]
    exact hdt
  · rintro ⟨i, hi, hit⟩
    exact ⟨getDefs w i, getDefs_lt_mem w i hi, hit⟩

theorem map_tns_set (s : List Defs) :
    ∀ (x : Nat) (d : Defs), d.target_namespace = (s.getD x default).target_namespace →
      (s.set x d).map Defs.target_namespace = s.map Defs.target_namespace := by
  induction s with
  | nil => intro x d _; rfl
  | cons a rest ih =>
    intro x d h
    cases x with
    | zero =>
      simp only [List.getD_cons_zero] at h
      simp [List.set, h]
    | succ j =>
      simp only [List.getD_cons_succ] at h
      simp only [List.set, List.map_cons]
      rw [ih j d h]

theorem pendingCount_set (s : List Defs) :
    ∀ (x : Nat) (d : Defs), x < s.length →
      ((s.set x d).map (fun d => d.imports.length)).sum + (s.getD x default).imports.length
        = (s.map (fun d => d.imports.length)).sum + d.imports.length := by
  induction s with
  | nil => intro x d h; cases h
  | cons a rest ih =>
    intro x d h
    cases x with
    | zero => simp [List.set]; omega
    | succ j =>
      simp only [List.set, List.map_cons, List.sum_cons, List.getD_cons_succ]
      have := ih j d (by simpa using h)
      omega

theorem pendingCount_setDefs (w : World) (x : Nat) (d : Defs) (hx : x < w.store.length) :
    pendingCount (setDefs w x d) + (getDefs w x).imports.length
      = pendingCount w + d.imports.length := by
  unfold pendingCount setDefs getDefs
  exact pendingCount_set w.store x d hx

/-- Setting a heap slot to a record with the same target namespace and
registered import keys preserves the builder invariant. -/
theorem WInv_setDefs (env : Env) (w : World) (x : Nat) (d : Defs)
    (htns : d.target_namespace = (getDefs w x).target_namespace)
    (himp : ∀ q ∈ d.imports, q.1 ∈ okeys w.registry)
    (h : WInv env w) : WInv env (setDefs w x d) := by
  obtain ⟨h1, h2, h3, h4, h5, h6⟩ := h
  by_cases hx : x < w.store.length
  · refine ⟨?_, ?_, ?_, ?_, h5, h6⟩
    · intro p hp
      obtain ⟨hplen, hptns⟩ := h1 p hp
      refine ⟨by rw [setDefs_length]; exact hplen, ?_⟩
      by_cases hpx : p.2 = x
      · rw [hpx, getDefs_setDefs_self w x d hx, htns, ← hpx, hptns]
      · rw [getDefs_setDefs_ne w x p.2 d hpx, hptns]
    · show ((w.store.set x d).map Defs.target_namespace).Nodup
      rw [map_tns_set w.store x d htns]
      exact h2
    · intro i hi
      rw [setDefs_length] at hi
      by_cases hix : i = x
      · rw [hix, getDefs_setDefs_self w x d hx, htns]
        exact h3 x hx
      · rw [getDefs_setDefs_ne w x i d hix]
        exact h3 i hi
    · intro i q hq
      by_cases hix : i = x
      · rw [hix, getDefs_setDefs_self w x d hx] at hq
        exact himp q hq
      · rw [getDefs_setDefs_ne w x i d hix] at hq
        exact h4 i q hq
  · have : setDefs w x d = { w with store := w.store } := by
      unfold setDefs
      rw [List.set_eq_of_length_le (Nat.le_of_not_lt hx)]
    rw [this]
    exact ⟨h1, h2, h3, h4, h5, h6⟩

theorem getDefs_store_eq (w w' : World) (h : w.store = w'.store) (i : Nat) :
    getDefs w i = getDefs w' i := by
  unfold getDefs
  rw [h]

theorem allocWorld_store (w : World) (loc : String) (tns : Option String) :
    (allocWorld w loc tns).store = w.store ++
      [({ location := loc, target_namespace := tns, schema := none, messages := [],
          port_types := [], bindings := [], services := [],
          imports := [] } : Defs)] := rfl

theorem allocWorld_fetchLog (w : World) (loc : String) (tns : Option String) :
    (allocWorld w loc tns).fetchLog = w.fetchLog ++ [loc] := rfl

theorem allocWorld_registry (w : World) (loc : String) (tns : Option String) :
    (allocWorld w loc tns).registry = oupsert w.registry tns w.store.length := rfl

/-- The fetch–allocate–register prefix preserves the builder invariant and
accounts the measures. -/
theorem WInv_alloc (env : Env) (w : World) (loc : String) (doc : Document)
    (h : WInv env w) (hdoc : alookup env loc = some doc)
    (hfresh : doc.targetNamespace ∉ okeys w.registry) :
    WInv env (allocWorld w loc doc.targetNamespace)
    ∧ loc ∉ w.fetchLog
    ∧ okeys (allocWorld w loc doc.targetNamespace).registry
        = okeys w.registry ++ [doc.targetNamespace]
    ∧ (allocWorld w loc doc.targetNamespace).store.length = w.store.length + 1
    ∧ pendingCount (allocWorld w loc doc.targetNamespace) = pendingCount w := by
  obtain ⟨h1, h2, h3, h4, h5, h6⟩ := h
  have hkeys : okeys (allocWorld w loc doc.targetNamespace).registry
      = okeys w.registry ++ [doc.targetNamespace] := by
    rw [allocWorld_registry]
    exact okeys_oupsert_fresh w.registry doc.targetNamespace w.store.length hfresh
  have hlocfresh : loc ∉ w.fetchLog := by
    intro hmem
    obtain ⟨doc', hdoc', htns'⟩ := h6 loc hmem
    rw [hdoc] at hdoc'
    cases hdoc'
    exact hfresh htns'
  have hstorelen : (allocWorld w loc doc.targetNamespace).store.length
      = w.store.length + 1 := by
    rw [allocWorld_store]
    simp
  have hnewdef : getDefs (allocWorld w loc doc.targetNamespace) w.store.length =
      ({ location := loc, target_namespace := doc.targetNamespace, schema := none,
         messages := [], port_types := [], bindings := [], services := [],
         imports := [] } : Defs) := by
    rw [getDefs_store_eq _ { w with store := w.store ++ [_] } (allocWorld_store w loc _)]
    exact getDefs_append_last w _
  have holddef : ∀ i, i < w.store.length →
      getDefs (allocWorld w loc doc.targetNamespace) i = getDefs w i := by
    intro i hi
    rw [getDefs_store_eq _ { w with store := w.store ++ [_] } (allocWorld_store w loc _)]
    exact getDefs_append_lt w _ i hi
  have hgtdef : ∀ i, w.store.length + 1 ≤ i →
      getDefs (allocWorld w loc doc.targetNamespace) i = default := by
    intro i hi
    rw [getDefs_store_eq _ { w with store := w.store ++ [_] } (allocWorld_store w loc _)]
    exact getDefs_append_gt w _ i hi
  refine ⟨⟨?_, ?_, ?_, ?_, ?_, ?_⟩, hlocfresh, hkeys, hstorelen, ?_⟩
  · intro p hp
    rw [allocWorld_registry] at hp
    rcases mem_oupsert w.registry doc.targetNamespace w.store.length p hp with hold | hnew
    · obtain ⟨hplen, hptns⟩ := h1 p hold
      refine ⟨by omega, ?_⟩
      rw [holddef p.2 hplen, hptns]
    · subst hnew
      refine ⟨by omega, ?_⟩
      rw [hnewdef]
  · rw [allocWorld_store, List.map_append, List.nodup_append]
    refine ⟨h2, by simp, ?_⟩
    intro a ha hb
    simp only [List.map_cons, List.map_nil, List.mem_singleton] at hb
    subst hb
    obtain ⟨i, hi, hit⟩ := (mem_map_tns_iff w _).mp ha
    exact hfresh (hit ▸ h3 i hi)
  · intro i hi
    rw [hstorelen] at hi
    rw [hkeys]
    by_cases hilen : i < w.store.length
    · rw [holddef i hilen]
      exact List.mem_append.mpr (Or.inl (h3 i hilen))
    · have : i = w.store.length := by omega
      rw [this, hnewdef]
      simp
  · intro i q hq
    rw [hkeys]
    by_cases hilen : i < w.store.length
    · rw [holddef i hilen] at hq
      exact List.mem_append.mpr (Or.inl (h4 i q hq))
    · by_cases hieq : i = w.store.length
      · rw [hieq, hnewdef] at hq
        cases hq
      · rw [hgtdef i (by omega)] at hq
        cases hq
  · rw [allocWorld_fetchLog, List.nodup_append]
    exact ⟨h5, List.nodup_singleton loc, by
      intro a ha hb
      simp only [List.mem_singleton] at hb
      subst hb
      exact hlocfresh ha⟩
  · intro l hl
    rw [allocWorld_fetchLog] at hl
    rw [hkeys]
    rcases List.mem_append.mp hl with hold | hnew
    · obtain ⟨doc', hd', ht'⟩ := h6 l hold
      exact ⟨doc', hd', List.mem_append.mpr (Or.inl ht')⟩
    · simp only [List.mem_singleton] at hnew
      subst hnew
      exact ⟨doc, hdoc, List.mem_append.mpr (Or.inr (by simp))⟩
  · unfold pendingCount
    rw [allocWorld_store]
    simp

/-! ## addImport and parse-phase lemmas -/

theorem addImport_registry (w : World) (x : Nat) (ns : Option String) (d : Nat) :
    (addImport w x ns d).registry = w.registry := rfl

theorem addImport_fetchLog (w : World) (x : Nat) (ns : Option String) (d : Nat) :
    (addImport w x ns d).fetchLog = w.fetchLog := rfl

theorem addImport_length (w : World) (x : Nat) (ns : Option String) (d : Nat) :
    (addImport w x ns d).store.length = w.store.length := by
  unfold addImport
  exact setDefs_length w x _

theorem WInv_addImport (env : Env) (w : World) (x : Nat) (ns : Option String) (d : Nat)
    (hns : ns ∈ okeys w.registry) (h : WInv env w) : WInv env (addImport w x ns d) := by
  unfold addImport
  apply WInv_setDefs env w x
    ({ getDefs w x with imports := oupsert (getDefs w x).imports ns d }) rfl ?_ h
  intro q hq
  rcases mem_oupsert (getDefs w x).imports ns d q hq with hold | hnew
  · exact h.2.2.2.1 x q hold
  · rw [hnew]
    exact hns

theorem pendingCount_addImport (w : World) (x : Nat) (ns : Option String) (d : Nat)
    (hx : x < w.store.length) :
    pendingCount (addImport w x ns d) ≤ pendingCount w + 1 := by
  unfold addImport
  have h := pendingCount_setDefs w x
    ({ getDefs w x with imports := oupsert (getDefs w x).imports ns d }) hx
  have h2 : ({ getDefs w x with imports := oupsert (getDefs w x).imports ns d } : Defs).imports
      = oupsert (getDefs w x).imports ns d := rfl
  rw [h2] at h
  have hlen : (oupsert (getDefs w x).imports ns d).length
      ≤ (getDefs w x).imports.length + 1 := oupsert_length_le _ ns d
  omega

theorem parse_types_proj (w : World) (t : Option (List SchemaFragment)) :
    (parse_types w t).1.store = w.store
    ∧ (parse_types w t).1.registry = w.registry
    ∧ (parse_types w t).1.fetchLog = w.fetchLog := by
  cases t with
  | none => exact ⟨rfl, rfl, rfl⟩
  | some l =>
    cases l with
    | nil => exact ⟨rfl, rfl, rfl⟩
    | cons f rest => exact ⟨rfl, rfl, rfl⟩

theorem WInv_congr (env : Env) (w w' : World) (hs : w'.store = w.store)
    (hr : w'.registry = w.registry) (hf : w'.fetchLog = w.fetchLog)
    (h : WInv env w) : WInv env w' := by
  obtain ⟨h1, h2, h3, h4, h5, h6⟩ := h
  have hget : ∀ i, getDefs w' i = getDefs w i := fun i => getDefs_store_eq w' w hs i
  refine ⟨?_, ?_, ?_, ?_, ?_, ?_⟩
  · intro p hp
    rw [hr] at hp
    obtain ⟨ha, hb⟩ := h1 p hp
    exact ⟨by rw [hs]; exact ha, by rw [hget]; exact hb⟩
  · rw [hs]; exact h2
  · intro i hi
    rw [hs] at hi
    rw [hget, hr]
    exact h3 i hi
  · intro i q hq
    rw [hget] at hq
    rw [hr]
    exact h4 i q hq
  · rw [hf]; exact h5
  · intro l hl
    rw [hf] at hl
    rw [hr]
    exact h6 l hl

/-! ## processImports unfolding lemmas -/

theorem processImports_cons_noloc (env : Env)
    (build : World → String → Except Err (Nat × World)) (x : Nat) (selfLoc : String)
    (w : World) (node : ImportNode) (rest : List ImportNode)
    (hl : node.location = none) :
    processImports env build x selfLoc w (node :: rest) = .error .typeError := by
  cases node with
  | mk nloc nns =>
    simp only at hl
    subst hl
    rfl

theorem processImports_cons_hit (env : Env)
    (build : World → String → Except Err (Nat × World)) (x : Nat) (selfLoc : String)
    (w : World) (node : ImportNode) (rest : List ImportNode) (l : String) (d : Nat)
    (hl : node.location = some l) (hreg : olookup w.registry node.ns = some d) :
    processImports env build x selfLoc w (node :: rest)
      = processImports env build x selfLoc (addImport w x node.ns d) rest := by
  cases node with
  | mk nloc nns =>
    simp only at hl hreg ⊢
    subst hl
    simp only [processImports]
    rw [hreg]

theorem processImports_cons_miss (env : Env)
    (build : World → String → Except Err (Nat × World)) (x : Nat) (selfLoc : String)
    (w : World) (node : ImportNode) (rest : List ImportNode) (l : String)
    (hl : node.location = some l) (hreg : olookup w.registry node.ns = none) :
    processImports env build x selfLoc w (node :: rest)
      = (match build w (resolveLocation selfLoc l) with
         | .error e => .error e
         | .ok (d, w') => processImports env build x selfLoc (addImport w' x node.ns d) rest) := by
  cases node with
  | mk nloc nns =>
    simp only at hl hreg ⊢
    subst hl
    simp only [processImports]
    rw [hreg]

/-- The `parse_imports` loop under the builder contract: it succeeds,
preserves the invariant, and records each import under a registered key,
adding at most one pending entry per node. -/
theorem processImports_ok (env : Env) (m : Nat)
    (build : World → String → Except Err (Nat × World)) (hbuild : BuildSpec env m build) :
    ∀ (nodes : List ImportNode) (selfLoc : String) (x : Nat) (w : World),
      (∀ node ∈ nodes, importOk env selfLoc node) →
      WInv env w →
      measureKeys env (okeys w.registry) < m →
      x < w.store.length →
      ∃ w', processImports env build x selfLoc w nodes = .ok w'
        ∧ WInv env w'
        ∧ (∀ k ∈ okeys w.registry, k ∈ okeys w'.registry)
        ∧ pendingCount w' + envBudget env w'.fetchLog
            ≤ pendingCount w + envBudget env w.fetchLog + nodes.length
        ∧ w.store.length ≤ w'.store.length := by
  intro nodes
  induction nodes with
  | nil =>
    intro selfLoc x w _ hWI _ _
    exact ⟨w, rfl, hWI, fun k hk => hk, by simp, Nat.le_refl _⟩
  | cons node rest ih =>
    intro selfLoc x w hnodes hWI hm hx
    obtain ⟨l, doc', hl, hdoc', htns'⟩ := hnodes node (by simp)
    have hrest : ∀ n ∈ rest, importOk env selfLoc n := fun n hn => hnodes n (by simp [hn])
    cases hreg : olookup w.registry node.ns with
    | some d =>
      rw [processImports_cons_hit env build x selfLoc w node rest l d hl hreg]
      have hns : node.ns ∈ okeys w.registry := by
        rw [← olookup_isSome_iff w.registry node.ns, hreg]
        rfl
      have hWI₁ : WInv env (addImport w x node.ns d) := WInv_addImport env w x node.ns d hns hWI
      have hm₁ : measureKeys env (okeys (addImport w x node.ns d).registry) < m := by
        rw [addImport_registry]
        exact hm
      have hx₁ : x < (addImport w x node.ns d).store.length := by
        rw [addImport_length]
        exact hx
      obtain ⟨w', hrun, hWI', hmono', hpb', hlen'⟩ :=
        ih selfLoc x (addImport w x node.ns d) hrest hWI₁ hm₁ hx₁
      refine ⟨w', hrun, hWI', ?_, ?_, ?_⟩
      · intro k hk
        apply hmono'
        rw [addImport_registry]
        exact hk
      · have hpc := pendingCount_addImport w x node.ns d hx
        have hbud : envBudget env (addImport w x node.ns d).fetchLog
            = envBudget env w.fetchLog := by rw [addImport_fetchLog]
        rw [hbud] at hpb'
        simp only [List.length_cons]
        omega
      · rw [addImport_length] at hlen'
        exact hlen'
    | none =>
      have hfresh : doc'.targetNamespace ∉ okeys w.registry := by
        rw [htns']
        intro hmem
        have := (olookup_isSome_iff w.registry node.ns).mpr hmem
        rw [hreg] at this
        cases this
      obtain ⟨x', w₁, hb, hWI₁, hmono₁, hreg₁, hpb₁, hlen₁⟩ :=
        hbuild w (resolveLocation selfLoc l) doc' hdoc' hfresh hWI hm
      rw [processImports_cons_miss env build x selfLoc w node rest l hl hreg, hb]
      have hns₁ : node.ns ∈ okeys w₁.registry := htns' ▸ hreg₁
      have hWI₂ : WInv env (addImport w₁ x node.ns x') :=
        WInv_addImport env w₁ x node.ns x' hns₁ hWI₁
      have hm₂ : measureKeys env (okeys (addImport w₁ x node.ns x').registry) < m := by
        rw [addImport_registry]
        exact Nat.lt_of_le_of_lt (measureKeys_mono env _ _ hmono₁) hm
      have hx₂ : x < (addImport w₁ x node.ns x').store.length := by
        rw [addImport_length]
        omega
      obtain ⟨w', hrun, hWI', hmono', hpb', hlen'⟩ :=
        ih selfLoc x (addImport w₁ x node.ns x') hrest hWI₂ hm₂ hx₂
      refine ⟨w', hrun, hWI', ?_, ?_, ?_⟩
      · intro k hk
        apply hmono'
        rw [addImport_registry]
        exact hmono₁ k hk
      · have hpc := pendingCount_addImport w₁ x node.ns x' (by omega)
        have hbud : envBudget env (addImport w₁ x node.ns x').fetchLog
            = envBudget env w₁.fetchLog := by rw [addImport_fetchLog]
        rw [hbud] at hpb'
        simp only [List.length_cons]
        omega
      · rw [addImport_length] at hlen'
        omega

/-- Unfolding of `buildBody` on a fetchable location. -/
theorem buildBody_eq (env : Env) (build : World → String → Except Err (Nat × World))
    (w : World) (loc : String) (doc : Document) (hdoc : alookup env loc = some doc) :
    buildBody env build w loc =
      (match processImports env build w.store.length loc
          (allocWorld w loc doc.targetNamespace) doc.importNodes with
       | .error e => .error e
       | .ok w₄ =>
         (match parse_types w₄ doc.types with
          | (w₅, schema) =>
            .ok (w.store.length, setDefs w₅ w.store.length
              { getDefs w₅ w.store.length with
                schema := schema,
                messages := parseEntityMap doc.messageNodes,
                port_types := parseEntityMap doc.portTypeNodes,
                bindings := parse_binding soap11match soap12match doc.bindingNodes,
                services := parseEntityMap doc.serviceNodes }))) := by
  unfold buildBody
  rw [hdoc]
  rfl

/-- The recursive builder satisfies its contract at every fuel level: this
is the induction behind cycle-safe termination.  Registration of the
`targetNamespace` before `parse_imports` recursion strictly shrinks the set
of unregistered environment namespaces. -/
theorem build_ok (env : Env) (henv : envOk env) :
    ∀ fuel, BuildSpec env fuel (buildDef env fuel) := by
  intro fuel
  induction fuel with
  | zero =>
    intro w loc doc _ _ _ hm
    cases hm
  | succ n ih =>
    intro w loc doc hdoc hfresh hWI hm
    obtain ⟨hWIa, hlocfresh, hkeysa, hlena, hpenda⟩ := WInv_alloc env w loc doc hWI hdoc hfresh
    have htnsNs : doc.targetNamespace ∈ envNamespaces env := envNamespaces_mem env loc doc hdoc
    have hma : measureKeys env (okeys (allocWorld w loc doc.targetNamespace).registry) < n := by
      rw [hkeysa]
      have hdec := measureKeys_register env (okeys w.registry) doc.targetNamespace htnsNs hfresh
      omega
    have hxa : w.store.length < (allocWorld w loc doc.targetNamespace).store.length := by
      omega
    obtain ⟨w₄, hrun, hWI₄, hmono₄, hpb₄, hlen₄⟩ :=
      processImports_ok env n (buildDef env n) ih doc.importNodes loc w.store.length
        (allocWorld w loc doc.targetNamespace) (henv.2 loc doc hdoc) hWIa hma hxa
    have hbud : envBudget env (allocWorld w loc doc.targetNamespace).fetchLog
        + doc.importNodes.length = envBudget env w.fetchLog := by
      rw [allocWorld_fetchLog]
      exact envBudget_fetch env henv.1 w.fetchLog loc doc hdoc hlocfresh
    cases hpt : parse_types w₄ doc.types with
    | mk w₅ schema =>
      have hbuild_eq : buildDef env (n + 1) w loc = .ok (w.store.length,
          setDefs w₅ w.store.length
            { getDefs w₅ w.store.length with
              schema := schema,
              messages := parseEntityMap doc.messageNodes,
              port_types := parseEntityMap doc.portTypeNodes,
              bindings := parse_binding soap11match soap12match doc.bindingNodes,
              services := parseEntityMap doc.serviceNodes }) := by
        show buildBody env (buildDef env n) w loc = _
        rw [buildBody_eq env (buildDef env n) w loc doc hdoc, hrun]
        show (match parse_types w₄ doc.types with
          | (w₅, schema) =>
            Except.ok (w.store.length, setDefs w₅ w.store.length
              { getDefs w₅ w.store.length with
                schema := schema,
                messages := parseEntityMap doc.messageNodes,
                port_types := parseEntityMap doc.portTypeNodes,
                bindings := parse_binding soap11match soap12match doc.bindingNodes,
                services := parseEntityMap doc.serviceNodes })) = _
        rw [hpt]
      have hproj := parse_types_proj w₄ doc.types
      rw [hpt] at hproj
      obtain ⟨hs₅, hr₅, hf₅⟩ := hproj
      have hWI₅ : WInv env w₅ := WInv_congr env w₄ w₅ hs₅ hr₅ hf₅ hWI₄
      have hx₅ : w.store.length < w₅.store.length := by
        rw [hs₅]
        omega
      set wfin := setDefs w₅ w.store.length
        { getDefs w₅ w.store.length with
          schema := schema,
          messages := parseEntityMap doc.messageNodes,
          port_types := parseEntityMap doc.portTypeNodes,
          bindings := parse_binding soap11match soap12match doc.bindingNodes,
          services := parseEntityMap doc.serviceNodes } with hwfin
    
      have hWIf : WInv env wfin := by
        rw [hwfin]
        exact WInv_setDefs env w₅ w.store.length _ rfl
          (fun q hq => hWI₅.2.2.2.1 w.store.length q hq) hWI₅
      refine ⟨w.store.length, wfin, hbuild_eq, hWIf, ?_, ?_, ?_, ?_⟩
      · intro k hk
        have h1 : k ∈ okeys (allocWorld w loc doc.targetNamespace).registry := by
          rw [hkeysa]
          exact List.mem_append.mpr (Or.inl hk)
        have h2 := hmono₄ k h1
        rw [← hr₅] at h2
        show k ∈ okeys wfin.registry
        rw [hwfin]
        exact h2
      · have h1 : doc.targetNamespace ∈ okeys (allocWorld w loc doc.targetNamespace).registry := by
          rw [hkeysa]
          exact List.mem_append.mpr (Or.inr (by simp))
        have h2 := hmono₄ _ h1
        rw [← hr₅] at h2
        show doc.targetNamespace ∈ okeys wfin.registry
        rw [hwfin]
        exact h2
      · have hpcfin : pendingCount wfin = pendingCount w₅ := by
          rw [hwfin]
          have h := pendingCount_setDefs w₅ w.store.length
            ({ getDefs w₅ w.store.length with
              schema := schema,
              messages := parseEntityMap doc.messageNodes,
              port_types := parseEntityMap doc.portTypeNodes,
              bindings := parse_binding soap11match soap12match doc.bindingNodes,
              services := parseEntityMap doc.serviceNodes }) hx₅
        
          have h2 : ({ getDefs w₅ w.store.length with
              schema := schema,
              messages := parseEntityMap doc.messageNodes,
              port_types := parseEntityMap doc.portTypeNodes,
              bindings := parse_binding soap11match soap12match doc.bindingNodes,
              services := parseEntityMap doc.serviceNodes } : Defs).imports
              = (getDefs w₅ w.store.length).imports := rfl
          rw [h2] at h
          omega
      
        have hpc₅ : pendingCount w₅ = pendingCount w₄ := by
          unfold pendingCount
          rw [hs₅]
        have hbfin : envBudget env wfin.fetchLog = envBudget env w₄.fetchLog := by
          rw [hwfin]
          show envBudget env w₅.fetchLog = _
          rw [hf₅]
        rw [hpcfin, hpc₅, hbfin]
        rw [allocWorld_fetchLog] at hpb₄
        rw [hpenda] at hpb₄
        rw [allocWorld_fetchLog] at hbud
        omega
      · show w.store.length ≤ wfin.store.length
        rw [hwfin, setDefs_length]
        omega

/-! ## resolve phase success lemmas -/

theorem mergeResult_schema_references (w : World) (x : Nat) (ns : Option String) (o : Nat) :
    (mergeResult w x ns o).schema_references = w.schema_references := rfl

theorem mergeResult_store_set (w : World) (x : Nat) (ns : Option String) (o : Nat) :
    (mergeResult w x ns o).store
      = w.store.set x (mergedDefs (getDefs w x) (getDefs w o) ns) := rfl

theorem mergeResult_tns_all (w : World) (x : Nat) (ns : Option String) (o : Nat) :
    ∀ d, (getDefs (mergeResult w x ns o) d).target_namespace
      = (getDefs w d).target_namespace := by
  intro d
  by_cases hd : d = x
  · subst hd
    by_cases hlen : d < w.store.length
    · rw [mergeResult_getDefs_self w d ns o hlen, mergedDefs_target_namespace]
    · rw [getDefs_store_eq (mergeResult w d ns o)
        { w with store := w.store.set d (mergedDefs (getDefs w d) (getDefs w o) ns) }
        (mergeResult_store_set w d ns o) d]
      unfold getDefs
      rw [List.set_eq_of_length_le (Nat.le_of_not_lt hlen)]
  · rw [mergeResult_getDefs_ne w x d ns o hd]

theorem mergeResult_tns_map (w : World) (x : Nat) (ns : Option String) (o : Nat) :
    (mergeResult w x ns o).store.map Defs.target_namespace
      = w.store.map Defs.target_namespace := by
  rw [mergeResult_store_set]
  apply map_tns_set
  rw [mergedDefs_target_namespace]
  rfl

theorem mergeResult_pendingCount (w : World) (x : Nat) (ns : Option String) (o : Nat) :
    pendingCount (mergeResult w x ns o) = pendingCount w := by
  by_cases hlen : x < w.store.length
  · have h := pendingCount_set w.store x (mergedDefs (getDefs w x) (getDefs w o) ns) hlen
    rw [mergedDefs_imports] at h
    show ((w.store.set x (mergedDefs (getDefs w x) (getDefs w o) ns)).map
      (fun d => d.imports.length)).sum = (w.store.map (fun d => d.imports.length)).sum
    have hget : (w.store.getD x default).imports = (getDefs w x).imports := rfl
    rw [hget] at h
    omega
  · show ((w.store.set x _).map (fun d => d.imports.length)).sum = _
    rw [List.set_eq_of_length_le (Nat.le_of_not_lt hlen)]
    rfl

theorem mergeResult_length_eq (w : World) (x : Nat) (ns : Option String) (o : Nat) :
    (mergeResult w x ns o).store.length = w.store.length :=
  mergeResult_length w x ns o

theorem mergeAll_ok (imps : List (Option String × Nat)) :
    ∀ (w : World) (x : Nat), (∀ p ∈ imps, p.1 ∈ okeys w.registry) →
    ∃ w', mergeAll w x imps = .ok w'
      ∧ w'.registry = w.registry
      ∧ w'.fetchLog = w.fetchLog
      ∧ w'.schema_references = w.schema_references
      ∧ (∀ i, (getDefs w' i).imports = (getDefs w i).imports)
      ∧ (∀ i, (getDefs w' i).target_namespace = (getDefs w i).target_namespace)
      ∧ w'.store.map Defs.target_namespace = w.store.map Defs.target_namespace
      ∧ pendingCount w' = pendingCount w
      ∧ w'.store.length = w.store.length := by
  induction imps with
  | nil =>
    intro w x _
    exact ⟨w, rfl, rfl, rfl, rfl, fun i => rfl, fun i => rfl, rfl, rfl, rfl⟩
  | cons p rest ih =>
    intro w x hreg
    have hp : (olookup w.registry p.1).isSome = true :=
      (olookup_isSome_iff w.registry p.1).mpr (hreg p (by simp))
    obtain ⟨w', hrun, hr, hf, hsr, himp, htns, hmap, hpc, hlen⟩ :=
      ih (mergeResult w x p.1 p.2) x (by
        intro q hq
        rw [mergeResult_registry]
        exact hreg q (by simp [hq]))
    refine ⟨w', ?_, ?_, ?_, ?_, ?_, ?_, ?_, ?_, ?_⟩
    · show (match mergeStep w x p.1 p.2 with
        | Except.error e => Except.error e
        | Except.ok w' => mergeAll w' x rest) = .ok w'
      rw [mergeStep_eq_ok w x p.1 p.2 hp]
      exact hrun
    · rw [hr, mergeResult_registry]
    · rw [hf, mergeResult_fetchLog]
    · rw [hsr, mergeResult_schema_references]
    · intro i
      rw [himp i, mergeStep_imports_all w x p.1 p.2 (mergeResult w x p.1 p.2)
        (mergeStep_eq_ok w x p.1 p.2 hp) i]
    · intro i
      rw [htns i, mergeResult_tns_all]
    · rw [hmap, mergeResult_tns_map]
    · rw [hpc, mergeResult_pendingCount]
    · rw [hlen, mergeResult_length_eq]

theorem clear_posts (w : World) (x : Nat) :
    (setDefs w x { getDefs w x with imports := [] }).registry = w.registry
    ∧ (setDefs w x { getDefs w x with imports := [] }).fetchLog = w.fetchLog
    ∧ (setDefs w x { getDefs w x with imports := [] }).schema_references = w.schema_references
    ∧ (∀ i, (getDefs (setDefs w x { getDefs w x with imports := [] }) i).target_namespace
        = (getDefs w i).target_namespace)
    ∧ (setDefs w x { getDefs w x with imports := [] }).store.map Defs.target_namespace
        = w.store.map Defs.target_namespace
    ∧ (∀ i, i ≠ x → (getDefs (setDefs w x { getDefs w x with imports := [] }) i).imports
        = (getDefs w i).imports)
    ∧ (getDefs (setDefs w x { getDefs w x with imports := [] }) x).imports = []
    ∧ pendingCount (setDefs w x { getDefs w x with imports := [] })
        + (getDefs w x).imports.length = pendingCount w := by
  by_cases hx : x < w.store.length
  · refine ⟨rfl, rfl, rfl, ?_, ?_, ?_, ?_, ?_⟩
    · intro i
      by_cases hi : i = x
      · subst hi
        rw [getDefs_setDefs_self w i _ hx]
      · rw [getDefs_setDefs_ne w x i _ hi]
    · show ((w.store.set x _).map Defs.target_namespace) = _
      apply map_tns_set
      rfl
    · intro i hi
      rw [getDefs_setDefs_ne w x i _ hi]
    · rw [getDefs_setDefs_self w x _ hx]
    · have h := pendingCount_setDefs w x { getDefs w x with imports := [] } hx
      have h2 : ({ getDefs w x with imports := [] } : Defs).imports = [] := rfl
      rw [h2] at h
      simpa using h
  · have hnoop : ∀ i, getDefs (setDefs w x { getDefs w x with imports := [] }) i
        = getDefs w i := getDefs_setDefs_oob w x _ hx
    have hdef : (getDefs w x).imports = [] := by
      rw [getDefs_oob_default w x hx]
      rfl
    refine ⟨rfl, rfl, rfl, fun i => by rw [hnoop i], ?_, fun i _ => by rw [hnoop i],
      by rw [hnoop x, hdef], ?_⟩
    · show ((w.store.set x _).map Defs.target_namespace) = _
      rw [List.set_eq_of_length_le (Nat.le_of_not_lt hx)]
    · show ((w.store.set x _).map (fun d => d.imports.length)).sum
          + (getDefs w x).imports.length = _
      rw [List.set_eq_of_length_le (Nat.le_of_not_lt hx), hdef]
      simp [pendingCount]

theorem resolveBody_eq (recur : World → Nat → Except Err World) (w : World) (x : Nat)
    (w₁ : World) (hmerge : mergeAll w x (getDefs w x).imports = .ok w₁) :
    resolveBody recur w x =
      (match resolveList recur (setDefs w₁ x { getDefs w₁ x with imports := [] })
          (getDefs w x).imports with
       | .error e => .error e
       | .ok w₂ => .ok (resolvePhase w₂ x)) := by
  unfold resolveBody
  show (match mergeAll w x (getDefs w x).imports with
    | Except.error e => Except.error e
    | Except.ok w' =>
      match resolveList recur (setDefs w' x { getDefs w' x with imports := [] })
          (getDefs w x).imports with
      | Except.error e => Except.error e
      | Except.ok w₂ => Except.ok (resolvePhase w₂ x)) = _
  rw [hmerge]

theorem resolveList_ok (fuel : Nat)
    (hrec : ∀ (w : World) (y : Nat), MInv w → pendingCount w < fuel →
      ∃ w', resolveImports fuel w y = .ok w'
        ∧ MInv w'
        ∧ w'.registry = w.registry
        ∧ w'.fetchLog = w.fetchLog
        ∧ w'.schema_references = w.schema_references
        ∧ (∀ i, (getDefs w' i).target_namespace = (getDefs w i).target_namespace)
        ∧ w'.store.map Defs.target_namespace = w.store.map Defs.target_namespace
        ∧ pendingCount w' ≤ pendingCount w) :
    ∀ (l : List (Option String × Nat)) (w : World), MInv w → pendingCount w < fuel →
      ∃ w', resolveList (resolveImports fuel) w l = .ok w'
        ∧ MInv w'
        ∧ w'.registry = w.registry
        ∧ w'.fetchLog = w.fetchLog
        ∧ w'.schema_references = w.schema_references
        ∧ (∀ i, (getDefs w' i).target_namespace = (getDefs w i).target_namespace)
        ∧ w'.store.map Defs.target_namespace = w.store.map Defs.target_namespace
        ∧ pendingCount w' ≤ pendingCount w := by
  intro l
  induction l with
  | nil =>
    intro w hMI _
    exact ⟨w, rfl, hMI, rfl, rfl, rfl, fun i => rfl, rfl, Nat.le_refl _⟩
  | cons p rest ih =>
    intro w hMI hpc
    obtain ⟨w₁, hrun₁, hMI₁, hr₁, hf₁, hs₁, ht₁, hm₁, hp₁⟩ := hrec w p.2 hMI hpc
    obtain ⟨w', hrun', hMI', hr', hf', hs', ht', hm', hp'⟩ :=
      ih w₁ hMI₁ (Nat.lt_of_le_of_lt hp₁ hpc)
    refine ⟨w', ?_, hMI', ?_, ?_, ?_, ?_, ?_, ?_⟩
    · show (match resolveImports fuel w p.2 with
        | Except.error e => Except.error e
        | Except.ok w₁ => resolveList (resolveImports fuel) w₁ rest) = .ok w'
      rw [hrun₁]
      exact hrun'
    · rw [hr', hr₁]
    · rw [hf', hf₁]
    · rw [hs', hs₁]
    · intro i
      rw [ht' i, ht₁ i]
    · rw [hm', hm₁]
    · omega

theorem resolve_ok :
    ∀ (fuel : Nat) (w : World) (x : Nat), MInv w → pendingCount w < fuel →
      ∃ w', resolveImports fuel w x = .ok w'
        ∧ MInv w'
        ∧ w'.registry = w.registry
        ∧ w'.fetchLog = w.fetchLog
        ∧ w'.schema_references = w.schema_references
        ∧ (∀ i, (getDefs w' i).target_namespace = (getDefs w i).target_namespace)
        ∧ w'.store.map Defs.target_namespace = w.store.map Defs.target_namespace
        ∧ pendingCount w' ≤ pendingCount w := by
  intro fuel
  induction fuel with
  | zero =>
    intro w x _ hpc
    cases hpc
  | succ n ih =>
    intro w x hMI hpc
    obtain ⟨w₁, hmerge, hr₁, hf₁, hs₁, himp₁, htns₁, hmap₁, hpc₁, hlen₁⟩ :=
      mergeAll_ok (getDefs w x).imports w x (fun p hp => hMI x p hp)
    obtain ⟨cr, cf, cs, ctns, cmap, cimp, cx, cpc⟩ :=
      clear_posts w₁ x
    set w₂ := setDefs w₁ x { getDefs w₁ x with imports := [] } with hw₂
    have hMI₂ : MInv w₂ := by
      intro i q hq
      rw [cr, hr₁]
      by_cases hix : i = x
      · subst hix
        rw [cx] at hq
        cases hq
      · rw [cimp i hix, himp₁ i] at hq
        exact hMI i q hq
    have hsnap₁ : (getDefs w₁ x).imports = (getDefs w x).imports := himp₁ x
    have hpc₂ : pendingCount w₂ + (getDefs w x).imports.length = pendingCount w := by
      rw [← hsnap₁, cpc, hpc₁]
    have hbody := resolveBody_eq (resolveImports n) w x w₁ hmerge
    cases hsnap : (getDefs w x).imports with
    | nil =>
      refine ⟨resolvePhase w₂ x, ?_, hMI₂, ?_, ?_, ?_, ?_, ?_, ?_⟩
      · show resolveBody (resolveImports n) w x = _
        rw [hbody, hsnap]
        rfl
      · show w₂.registry = w.registry
        rw [cr, hr₁]
      · show w₂.fetchLog = w.fetchLog
        rw [cf, hf₁]
      · show w₂.schema_references = w.schema_references
        rw [cs, hs₁]
      · intro i
        show (getDefs w₂ i).target_namespace = _
        rw [ctns i, htns₁ i]
      · show w₂.store.map Defs.target_namespace = _
        rw [cmap, hmap₁]
      · show pendingCount w₂ ≤ pendingCount w
        omega
    | cons p rest =>
      have hlt₂ : pendingCount w₂ < n := by
        rw [hsnap] at hpc₂
        simp only [List.length_cons] at hpc₂
        omega
      obtain ⟨w₃, hrun₃, hMI₃, hr₃, hf₃, hs₃, ht₃, hm₃, hp₃⟩ :=
        resolveList_ok n ih ((getDefs w x).imports) w₂ hMI₂ hlt₂
      refine ⟨resolvePhase w₃ x, ?_, hMI₃, ?_, ?_, ?_, ?_, ?_, ?_⟩
      · show resolveBody (resolveImports n) w x = _
        rw [hbody, hrun₃]
      · show w₃.registry = w.registry
        rw [hr₃, cr, hr₁]
      · show w₃.fetchLog = w.fetchLog
        rw [hf₃, cf, hf₁]
      · show w₃.schema_references = w.schema_references
        rw [hs₃, cs, hs₁]
      · intro i
        show (getDefs w₃ i).target_namespace = _
        rw [ht₃ i, ctns i, htns₁ i]
      · show w₃.store.map Defs.target_namespace = _
        rw [hm₃, cmap, hmap₁]
      · show pendingCount w₃ ≤ pendingCount w
        omega

/-! ## Total load under a consistent environment -/

theorem WInv_empty (env : Env) : WInv env emptyWorld := by
  refine ⟨?_, ?_, ?_, ?_, ?_, ?_⟩
  · intro p hp
    cases hp
  · exact List.nodup_nil
  · intro i hi
    cases hi
  · intro i q hq
    cases hq
  · exact List.nodup_nil
  · intro loc hl
    cases hl

theorem envBudget_nil (env : Env) :
    envBudget env [] = (env.map (fun p => p.2.importNodes.length)).sum := by
  unfold envBudget
  congr 1
  rw [List.filter_eq_self.mpr]
  intro p _
  simp

theorem measureKeys_le (env : Env) : measureKeys env [] ≤ env.length := by
  unfold measureKeys
  calc ((envNamespaces env).filter _).length
      ≤ (envNamespaces env).length := List.length_filter_le _ _
    _ ≤ (env.map (fun p => p.2.targetNamespace)).length :=
        (List.dedup_sublist _).length_le
    _ = env.length := List.length_map _ _

/-- A consistent environment loads to completion: the registry breaks every
cycle, each location is fetched at most once, the heap holds exactly one
`Definitions` per target namespace, and the registry indexes them. -/
theorem load_total (env : Env) (rootLoc : String) (doc : Document)
    (henv : envOk env) (hdoc : alookup env rootLoc = some doc) :
    ∃ root w, loadWSDL env (loadFuel env) rootLoc = .ok (root, w)
      ∧ w.fetchLog.Nodup
      ∧ (w.store.map Defs.target_namespace).Nodup
      ∧ (∀ p ∈ w.registry, p.2 < w.store.length
          ∧ (getDefs w p.2).target_namespace = p.1) := by
  have hfresh : doc.targetNamespace ∉ okeys emptyWorld.registry := by
    intro h
    cases h
  have hm : measureKeys env (okeys emptyWorld.registry) < loadFuel env := by
    show measureKeys env [] < loadFuel env
    have := measureKeys_le env
    unfold loadFuel
    omega
  obtain ⟨x, w₁, hb, hWI₁, _, _, hpb₁, _⟩ :=
    build_ok env henv (loadFuel env) emptyWorld rootLoc doc hdoc hfresh (WInv_empty env) hm
  have hpc₁ : pendingCount w₁ < loadFuel env := by
    have h0 : pendingCount emptyWorld = 0 := rfl
    have h1 : envBudget env emptyWorld.fetchLog
        = (env.map (fun p => p.2.importNodes.length)).sum := envBudget_nil env
    unfold loadFuel
    rw [h0, h1] at hpb₁
    unfold loadFuel at *
    omega
  obtain ⟨w₂, hr, hMI₂, hreg₂, hf₂, hs₂, htns₂, hmap₂, hpc₂⟩ :=
    resolve_ok (loadFuel env) w₁ x hWI₁.2.2.2.1 hpc₁
  refine ⟨x, w₂, ?_, ?_, ?_, ?_⟩
  · unfold loadWSDL
    rw [hb]
    show (match resolveImports (loadFuel env) w₁ x with
      | Except.error e => Except.error e
      | Except.ok w => Except.ok (x, w)) = _
    rw [hr]
  · rw [hf₂]
    exact hWI₁.2.2.2.2.1
  · rw [hmap₂]
    exact hWI₁.2.1
  · intro p hp
    rw [hreg₂] at hp
    obtain ⟨hplen, hptns⟩ := hWI₁.1 p hp
    have hlen : w₂.store.length = w₁.store.length := by
      have := congrArg List.length hmap₂
      simpa using this
    exact ⟨by omega, by rw [htns₂ p.2]; exact hptns⟩

/-! ## Two-document cycle: mutual visibility of direct entities -/

theorem akeys_aupdate_nodup {β : Type} (o : List (String × β)) :
    ∀ m : List (String × β), (akeys m).Nodup → (akeys (aupdate m o)).Nodup := by
  induction o with
  | nil => intro m h; exact h
  | cons p rest ih =>
    intro m h
    have step : aupdate m (p :: rest) = aupdate (upsert m p.1 p.2) rest := by
      simp [aupdate]
    rw [step]
    exact ih _ (akeys_upsert_nodup m p.1 p.2 h)

theorem listPrefix_decomp : ∀ (p s : List Char), listPrefix p s = true → ∃ t, s = p ++ t := by
  intro p
  induction p with
  | nil => intro s _; exact ⟨s, rfl⟩
  | cons a as ih =>
    intro s h
    cases s with
    | nil => cases h
    | cons b bs =>
      simp only [listPrefix, Bool.and_eq_true, decide_eq_true_eq] at h
      obtain ⟨t, ht⟩ := ih bs h.2
      exact ⟨t, by rw [h.1, ht]; rfl⟩

theorem strStartsWith_decomp (k p : String) (h : strStartsWith k p = true) :
    ∃ rest : String, k = p ++ rest := by
  unfold strStartsWith at h
  obtain ⟨t, ht⟩ := listPrefix_decomp p.data k.data h
  exact ⟨String.mk t, String.ext ht⟩

/-- In the cycle A⇄B, after resolving A each document's directly declared
(own-namespace-keyed) entities are visible in the other's maps. -/
theorem twoCycle_visibility (nsA nsB : String) (A B : Defs) (fuel : Nat)
    (hAB : nsA ≠ nsB)
    (hbA : ('}' : Char) ∉ nsA.data) (hbB : ('}' : Char) ∉ nsB.data)
    (hAimp : A.imports = [(some nsB, 1)])
    (hBimp : B.imports = [(some nsA, 0)])
    (hAnd : (akeys A.messages).Nodup) (hBnd : (akeys B.messages).Nodup) :
    ∃ w', resolveImports (fuel + 3)
        ⟨[A, B], [(some nsA, 0), (some nsB, 1)], [], [], []⟩ 0 = .ok w'
      ∧ (∀ k v, alookup B.messages k = some v →
          strStartsWith k ("\x7b" ++ nsB ++ "\x7d") = true →
          alookup (getDefs w' 0).messages k = some v)
      ∧ (∀ k v, alookup A.messages k = some v →
          strStartsWith k ("\x7b" ++ nsA ++ "\x7d") = true →
          alookup (getDefs w' 1).messages k = some v) := by
  set w0 : World := ⟨[A, B], [(some nsA, 0), (some nsB, 1)], [], [], []⟩ with hw0
  have hA0 : getDefs w0 0 = A := rfl
  have hB0 : getDefs w0 1 = B := rfl
  have hlen0 : (0 : Nat) < w0.store.length := by
    show (0 : Nat) < 2
    decide
  have hlen1 : (1 : Nat) < w0.store.length := by
    show (1 : Nat) < 2
    decide
  have hreg1 : (olookup w0.registry (some nsB)).isSome = true := by
    show (olookup [(some nsA, 0), (some nsB, 1)] (some nsB)).isSome = true
    simp [olookup, hAB]
  set w1 : World := mergeResult w0 0 (some nsB) 1 with hw1
  set w2 : World := setDefs w1 0 { getDefs w1 0 with imports := [] } with hw2
  have hB2 : getDefs w2 1 = B := by
    rw [hw2, getDefs_setDefs_ne w1 0 1 _ (by decide), hw1,
      mergeResult_getDefs_ne w0 0 1 (some nsB) 1 (by decide), hB0]
  have hA2 : getDefs w2 0 = { mergedDefs A B (some nsB) with imports := [] } := by
    rw [hw2, getDefs_setDefs_self w1 0 _ (by rw [hw1, mergeResult_length]; exact hlen0), hw1,
      mergeResult_getDefs_self w0 0 (some nsB) 1 hlen0, hA0, hB0]
  have hreg2 : (olookup w2.registry (some nsA)).isSome = true := by
    have : w2.registry = w0.registry := by
      rw [hw2]
      show w1.registry = w0.registry
      rw [hw1, mergeResult_registry]
    rw [this]
    show (olookup [(some nsA, 0), (some nsB, 1)] (some nsA)).isSome = true
    simp [olookup]
  set w3 : World := mergeResult w2 1 (some nsA) 0 with hw3
  set w4 : World := setDefs w3 1 { getDefs w3 1 with imports := [] } with hw4
  have hA4 : getDefs w4 0 = { mergedDefs A B (some nsB) with imports := [] } := by
    rw [hw4, getDefs_setDefs_ne w3 1 0 _ (by decide), hw3,
      mergeResult_getDefs_ne w2 1 0 (some nsA) 0 (by decide), hA2]
  -- re-entrant frame on A: imports already cleared
  set w5 : World := resolvePhase (setDefs w4 0 { getDefs w4 0 with imports := [] }) 0 with hw5
  have hframeA2 : resolveImports (fuel + 1) w4 0 = .ok w5 := by
    show resolveBody (resolveImports fuel) w4 0 = .ok w5
    rw [resolveBody_empty (resolveImports fuel) w4 0 (by rw [hA4]), hw5]
  set w6 : World := resolvePhase w5 1 with hw6
  have hframeB : resolveImports (fuel + 2) w2 1 = .ok w6 := by
    show resolveBody (resolveImports (fuel + 1)) w2 1 = .ok w6
    rw [resolveBody_single (resolveImports (fuel + 1)) w2 1 (some nsA) 0 w5
      (by rw [hB2, hBimp]) hreg2 (by rw [← hw3, ← hw4]; exact hframeA2), hw6]
  set wF : World := resolvePhase w6 0 with hwF
  have hframeA : resolveImports (fuel + 3) w0 0 = .ok wF := by
    show resolveBody (resolveImports (fuel + 2)) w0 0 = .ok wF
    rw [resolveBody_single (resolveImports (fuel + 2)) w0 0 (some nsB) 1 w6
      (by rw [hA0, hAimp]) hreg1 (by rw [← hw1, ← hw2]; exact hframeB), hwF]
  have hlen2 : (1 : Nat) < w2.store.length := by
    rw [hw2, setDefs_length, hw1, mergeResult_length]
    exact hlen1
  refine ⟨wF, hframeA, ?_, ?_⟩
  · -- B's direct entities reach A
    intro k v hkv hpre
    have hAF : getDefs wF 0 = { getDefs w4 0 with imports := [] } := by
      rw [hwF, getDefs_resolvePhase, hw6, getDefs_resolvePhase, hw5, getDefs_resolvePhase,
        getDefs_setDefs_self w4 0 _ ?hl]
      case hl =>
        rw [hw4, setDefs_length, hw3, mergeResult_length]
        rw [hw2, setDefs_length, hw1, mergeResult_length]
        exact hlen0
    have hmsg : (getDefs wF 0).messages
        = aupdate A.messages (filter_namespace B.messages (some nsB)) := by
      rw [hAF]
      show (getDefs w4 0).messages = _
      rw [hA4]
      show (mergedDefs A B (some nsB)).messages = _
      exact mergedDefs_messages A B (some nsB)
    rw [hmsg, alookup_aupdate _ _ (akeys_filter_namespace_nodup B.messages (some nsB) hBnd)]
    have hfl : alookup (filter_namespace B.messages (some nsB)) k = some v := by
      rw [alookup_filter_namespace]
      rw [if_pos]
      · exact hkv
      · exact hpre
    rw [hfl]
  · -- A's direct entities reach B
    intro k v hkv hpre
    have hBF : getDefs wF 1 = { getDefs w3 1 with imports := [] } := by
      rw [hwF, getDefs_resolvePhase, hw6, getDefs_resolvePhase, hw5, getDefs_resolvePhase,
        getDefs_setDefs_ne w4 0 1 _ (by decide), hw4,
        getDefs_setDefs_self w3 1 _ ?hl]
      case hl =>
        rw [hw3, mergeResult_length]
        exact hlen2
    have hB3 : getDefs w3 1
        = mergedDefs B ({ mergedDefs A B (some nsB) with imports := [] }) (some nsA) := by
      rw [hw3, mergeResult_getDefs_self w2 1 (some nsA) 0 hlen2, hB2, hA2]
    have hmsg : (getDefs wF 1).messages
        = aupdate B.messages (filter_namespace
            (aupdate A.messages (filter_namespace B.messages (some nsB))) (some nsA)) := by
      rw [hBF]
      show (getDefs w3 1).messages = _
      rw [hB3]
      show (mergedDefs B ({ mergedDefs A B (some nsB) with imports := [] }) (some nsA)).messages
        = _
      rw [mergedDefs_messages]
      show aupdate B.messages (filter_namespace (mergedDefs A B (some nsB)).messages (some nsA))
        = _
      rw [mergedDefs_messages]
    have hAcurnd : (akeys (aupdate A.messages
        (filter_namespace B.messages (some nsB)))).Nodup :=
      akeys_aupdate_nodup _ A.messages hAnd
    rw [hmsg, alookup_aupdate _ _ (akeys_filter_namespace_nodup _ (some nsA) hAcurnd)]
    have hnotB : strStartsWith k ("\x7b" ++ nsB ++ "\x7d") = false := by
      obtain ⟨rest, hrest⟩ := strStartsWith_decomp k ("\x7b" ++ nsA ++ "\x7d") hpre
      have hk2 : k = "\x7b" ++ nsA ++ "\x7d" ++ rest := by
        rw [hrest]
      rw [hk2]
      rw [Bool.eq_false_iff]
      intro hcon
      exact hAB ((strStartsWith_brace nsB nsA rest hbB hbA).mp hcon).symm
  
    have hfl : alookup (filter_namespace
        (aupdate A.messages (filter_namespace B.messages (some nsB))) (some nsA)) k
        = some v := by
      rw [alookup_filter_namespace]
      simp only [pyStr]
      rw [if_pos hpre,
        alookup_aupdate _ _ (akeys_filter_namespace_nodup B.messages (some nsB) hBnd)]
      have hnone : alookup (filter_namespace B.messages (some nsB)) k = none := by
        rw [alookup_filter_namespace]
        simp only [pyStr]
        rw [if_neg (by simp [hnotB])]
      rw [hnone]
      exact hkv
    rw [hfl]

/-- C2: for every consistent environment — cyclic import graphs included —
loading the root terminates (with the computable fuel bound), every
location is fetched and parsed at most once, the heap holds exactly one
`Definitions` per target namespace with the registry indexing them; and in
the two-document cycle A⇄B each document's directly declared entities
become visible to the other.  Registration-before-recursion is what makes
the registry break the cycles (the `build_ok` induction). -/
theorem claim_C2 :
    (∀ (env : Env) (rootLoc : String) (doc : Document),
      envOk env → alookup env rootLoc = some doc →
      ∃ root w, loadWSDL env (loadFuel env) rootLoc = .ok (root, w)
        ∧ w.fetchLog.Nodup
        ∧ (w.store.map Defs.target_namespace).Nodup
        ∧ (∀ p ∈ w.registry, p.2 < w.store.length
            ∧ (getDefs w p.2).target_namespace = p.1))
    ∧ (∀ (nsA nsB : String) (A B : Defs) (fuel : Nat),
        nsA ≠ nsB →
        ('}' : Char) ∉ nsA.data → ('}' : Char) ∉ nsB.data →
        A.imports = [(some nsB, 1)] → B.imports = [(some nsA, 0)] →
        (akeys A.messages).Nodup → (akeys B.messages).Nodup →
        ∃ w', resolveImports (fuel + 3)
            ⟨[A, B], [(some nsA, 0), (some nsB, 1)], [], [], []⟩ 0 = .ok w'
          ∧ (∀ k v, alookup B.messages k = some v →
              strStartsWith k ("\x7b" ++ nsB ++ "\x7d") = true →
              alookup (getDefs w' 0).messages k = some v)
          ∧ (∀ k v, alookup A.messages k = some v →
              strStartsWith k ("\x7b" ++ nsA ++ "\x7d") = true →
              alookup (getDefs w' 1).messages k = some v)) :=
  ⟨fun env rootLoc doc henv hdoc => load_total env rootLoc doc henv hdoc,
   fun nsA nsB A B fuel h1 h2 h3 h4 h5 h6 h7 =>
     twoCycle_visibility nsA nsB A B fuel h1 h2 h3 h4 h5 h6 h7⟩

theorem c2env_ok : envOk c2env := by
  refine ⟨by decide, ?_⟩
  intro loc doc h node hn
  by_cases hl : "a.wsdl" = loc
  · subst hl
    have hdoc : doc = c2doc := by
      have h' : some c2doc = some doc := h
      injection h' with h''
      exact h''.symm
    subst hdoc
    have hnode : node = ⟨some "a.wsdl", some "urn:a"⟩ := by
      simpa [c2doc] using hn
    subst hnode
    exact ⟨"a.wsdl", c2doc, rfl, by decide, by decide⟩
  · exfalso
    simp [c2env, c2doc, alookup, hl] at h

/-- Witness for C2: the self-import cycle loads to completion with a
duplicate-free fetch log and heap, and the concrete two-document cycle
exchanges its directly declared messages. -/
theorem claim_C2_witness :
    (∃ root w, loadWSDL c2env (loadFuel c2env) "a.wsdl" = .ok (root, w)
      ∧ w.fetchLog.Nodup
      ∧ (w.store.map Defs.target_namespace).Nodup
      ∧ (∀ p ∈ w.registry, p.2 < w.store.length
          ∧ (getDefs w p.2).target_namespace = p.1))
    ∧ (∃ w', resolveImports (0 + 3)
        ⟨[c2A, c2B], [(some "urn:a", 0), (some "urn:b", 1)], [], [], []⟩ 0 = .ok w'
      ∧ (∀ k v, alookup c2B.messages k = some v →
          strStartsWith k ("\x7b" ++ "urn:b" ++ "\x7d") = true →
          alookup (getDefs w' 0).messages k = some v)
      ∧ (∀ k v, alookup c2A.messages k = some v →
          strStartsWith k ("\x7b" ++ "urn:a" ++ "\x7d") = true →
          alookup (getDefs w' 1).messages k = some v)) :=
  ⟨claim_C2.1 c2env "a.wsdl" c2doc c2env_ok rfl,
   claim_C2.2 "urn:a" "urn:b" c2A c2B 0 (by decide) (by decide) (by decide)
     rfl rfl (by decide) (by decide)⟩

theorem c10env2_ok : envOk c10env2 := by
  refine ⟨by decide, ?_⟩
  intro loc doc h node hn
  by_cases hl : "r.wsdl" = loc
  · subst hl
    have hdoc : doc = ⟨some "urn:r", [], none, [], [], [], []⟩ := by
      have h' : some (⟨some "urn:r", [], none, [], [], [], []⟩ : Document) = some doc := h
      injection h' with h''
      exact h''.symm
    subst hdoc
    cases hn
  · exfalso
    simp [c10env2, alookup, hl] at h

/-- C10 (amended): the final branch of `merge` writes to the undefined
attribute `self._definitions`, so `merge` completes without error exactly
when the namespace argument is already registered (otherwise it raises
`AttributeError`); the matching condition — every imported document's
declared `targetNamespace` equals the referencing import's `namespace`
attribute — guarantees the precondition for the whole load (sufficient),
but is not necessary. -/
theorem claim_C10 :
    (∀ (w : World) (x : Nat) (ns : Option String) (o : Nat),
      ((olookup w.registry ns).isSome = true →
        mergeStep w x ns o = .ok (mergeResult w x ns o))
      ∧ ((olookup w.registry ns).isSome = false →
        mergeStep w x ns o = .error .attributeError))
    ∧ (∀ (env : Env) (rootLoc : String) (doc : Document),
        envOk env → alookup env rootLoc = some doc →
        ∃ root w, loadWSDL env (loadFuel env) rootLoc = .ok (root, w)) := by
  refine ⟨fun w x ns o => ⟨mergeStep_eq_ok w x ns o, mergeStep_eq_err w x ns o⟩, ?_⟩
  intro env rootLoc doc henv hdoc
  obtain ⟨root, w, h, _⟩ := load_total env rootLoc doc henv hdoc
  exact ⟨root, w, h⟩

/-- Witness for C10 at concrete inputs: a registered namespace merges
without error, an unregistered one raises the `AttributeError`, and a
consistent environment loads without error. -/
theorem claim_C10_witness :
    (mergeStep c5w 0 (some "urn:a") 0 = .ok (mergeResult c5w 0 (some "urn:a") 0))
    ∧ (mergeStep c5w 0 (some "urn:zzz") 0 = .error .attributeError)
    ∧ (∃ root w, loadWSDL c10env2 (loadFuel c10env2) "r.wsdl" = .ok (root, w)) :=
  ⟨(claim_C10.1 c5w 0 (some "urn:a") 0).1 (by decide),
   (claim_C10.1 c5w 0 (some "urn:zzz") 0).2 (by decide),
   claim_C10.2 c10env2 "r.wsdl" ⟨some "urn:r", [], none, [], [], [], []⟩ c10env2_ok rfl⟩

theorem hasMergeOn_append (d : Nat) (E₁ E₂ : List Event) :
    hasMergeOn d (E₁ ++ E₂) = (hasMergeOn d E₁ || hasMergeOn d E₂) := by
  simp [hasMergeOn]

theorem hasResolveOn_append (d : Nat) (E₁ E₂ : List Event) :
    hasResolveOn d (E₁ ++ E₂) = (hasResolveOn d E₁ || hasResolveOn d E₂) := by
  simp [hasResolveOn]

theorem noMergeAfterResolve_of_no_resolve (d : Nat) (E : List Event)
    (h : hasResolveOn d E = false) : noMergeAfterResolve d E = true := by
  induction E with
  | nil => rfl
  | cons e rest ih =>
    simp only [hasResolveOn, List.any_cons, Bool.or_eq_false_iff] at h
    rw [noMergeAfterResolve, if_neg (by simp [h.1])]
    exact ih h.2

theorem noMergeAfterResolve_of_no_merge (d : Nat) (E : List Event)
    (h : hasMergeOn d E = false) : noMergeAfterResolve d E = true := by
  induction E with
  | nil => rfl
  | cons e rest ih =>
    simp only [hasMergeOn, List.any_cons, Bool.or_eq_false_iff] at h
    by_cases hr : isResolveOn d e = true
    · rw [noMergeAfterResolve, if_pos hr, List.all_eq_true]
      intro x hx
      have : isMergeOn d x = false := by
        have h2 := h.2
        rw [List.any_eq_false] at h2
        exact Bool.eq_false_iff.mpr (h2 x hx)
      simp [this]
    · rw [noMergeAfterResolve, if_neg hr]
      exact ih h.2

theorem noMergeAfterResolve_append (d : Nat) (E₁ E₂ : List Event)
    (h₁ : noMergeAfterResolve d E₁ = true)
    (h₂ : noMergeAfterResolve d E₂ = true)
    (h₃ : hasResolveOn d E₁ = true → hasMergeOn d E₂ = false) :
    noMergeAfterResolve d (E₁ ++ E₂) = true := by
  induction E₁ with
  | nil => simpa using h₂
  | cons e rest ih =>
    by_cases hr : isResolveOn d e = true
    · rw [List.cons_append, noMergeAfterResolve, if_pos hr, List.all_eq_true]
      intro x hx
      rw [List.mem_append] at hx
      have hrest : List.all rest (fun x => ! isMergeOn d x) = true := by
        rw [noMergeAfterResolve, if_pos hr] at h₁
        exact h₁
      rcases hx with hx | hx
      · rw [List.all_eq_true] at hrest
        exact hrest x hx
      · have hm : hasMergeOn d E₂ = false :=
          h₃ (by simp [hasResolveOn, List.any_cons, hr])
        rw [hasMergeOn, List.any_eq_false] at hm
        simpa using Bool.eq_false_iff.mpr (hm x hx)
    · rw [List.cons_append, noMergeAfterResolve, if_neg hr]
      apply ih
      · rw [noMergeAfterResolve, if_neg hr] at h₁
        exact h₁
      · intro hres
        have hcons : hasResolveOn d (e :: rest) = true := by
          rw [hasResolveOn, List.any_cons]
          have h' : List.any rest (isResolveOn d) = true := hres
          rw [h', Bool.or_true]
        exact h₃ hcons

theorem hasResolveOn_mergeEvts (d x : Nat) (l : List (Option String × Nat)) :
    hasResolveOn d (l.map (fun p => Event.mergeEvt x p.1 p.2)) = false := by
  rw [hasResolveOn, List.any_eq_false]
  intro e he
  rw [List.mem_map] at he
  obtain ⟨p, _, hp⟩ := he
  subst hp
  simp [isResolveOn]

theorem hasMergeOn_mergeEvts_ne (d x : Nat) (l : List (Option String × Nat))
    (h : d ≠ x) :
    hasMergeOn d (l.map (fun p => Event.mergeEvt x p.1 p.2)) = false := by
  rw [hasMergeOn, List.any_eq_false]
  intro e he
  rw [List.mem_map] at he
  obtain ⟨p, _, hp⟩ := he
  subst hp
  simp only [isMergeOn, decide_eq_true_eq]
  exact fun hh => h hh.symm

theorem hasMergeOn_block (d x : Nat) (dfs : Defs) :
    hasMergeOn d (resolveBlock x dfs) = false := by
  rw [hasMergeOn, List.any_eq_false]
  intro e he
  simp only [resolveBlock, List.mem_append, List.mem_map] at he
  rcases he with ((⟨p, _, hp⟩ | ⟨p, _, hp⟩) | ⟨p, _, hp⟩) | ⟨p, _, hp⟩ <;>
    (subst hp; simp [isMergeOn])

theorem hasResolveOn_block_self (d x : Nat) (dfs : Defs)
    (h : hasResolveOn d (resolveBlock x dfs) = true) : d = x := by
  rw [hasResolveOn, List.any_eq_true] at h
  obtain ⟨e, he, hres⟩ := h
  simp only [resolveBlock, List.mem_append, List.mem_map] at he
  rcases he with ((⟨p, _, hp⟩ | ⟨p, _, hp⟩) | ⟨p, _, hp⟩) | ⟨p, _, hp⟩ <;>
    (subst hp; simp only [isResolveOn, decide_eq_true_eq] at hres; exact hres.symm)

theorem mergeAll_trace (l : List (Option String × Nat)) :
    ∀ (w w' : World) (x : Nat), mergeAll w x l = .ok w' →
      w'.trace = w.trace ++ l.map (fun p => Event.mergeEvt x p.1 p.2) := by
  induction l with
  | nil =>
    intro w w' x h
    simp only [mergeAll] at h
    cases h
    simp
  | cons p rest ih =>
    intro w w' x h
    simp only [mergeAll] at h
    cases hstep : mergeStep w x p.1 p.2 with
    | error e => rw [hstep] at h; cases h
    | ok w₁ =>
      rw [hstep] at h
      have hreg : (olookup w.registry p.1).isSome = true := by
        by_contra hcon
        rw [mergeStep_eq_err w x p.1 p.2 (Bool.eq_false_iff.mpr hcon)] at hstep
        cases hstep
      rw [mergeStep_eq_ok w x p.1 p.2 hreg] at hstep
      cases hstep
      rw [ih _ w' x h, mergeResult_trace]
      simp

theorem resolvePhase_trace (w : World) (x : Nat) :
    (resolvePhase w x).trace = w.trace ++ resolveBlock x (getDefs w x) := rfl

theorem setDefs_trace (w : World) (x : Nat) (d : Defs) :
    (setDefs w x d).trace = w.trace := rfl

theorem resolveList_traceSpec (recur : World → Nat → Except Err World)
    (hrec : TraceSpec recur) :
    ∀ (l : List (Option String × Nat)) (w w' : World),
      resolveList recur w l = .ok w' →
      ∃ E, w'.trace = w.trace ++ E
        ∧ (∀ d, (getDefs w d).imports = [] → hasMergeOn d E = false)
        ∧ (∀ d, hasResolveOn d E = true → (getDefs w' d).imports = [])
        ∧ (∀ d, noMergeAfterResolve d E = true)
        ∧ (∀ d, (getDefs w' d).imports = (getDefs w d).imports
            ∨ (getDefs w' d).imports = []) := by
  intro l
  induction l with
  | nil =>
    intro w w' h
    simp only [resolveList] at h
    cases h
    refine ⟨[], by simp, fun d _ => rfl, fun d hd => ?_, fun d => rfl, fun d => .inl rfl⟩
    exact absurd hd (by simp [hasResolveOn])
  | cons p rest ih =>
    intro w w' h
    simp only [resolveList] at h
    cases hstep : recur w p.2 with
    | error e => rw [hstep] at h; cases h
    | ok w₁ =>
      rw [hstep] at h
      obtain ⟨E₁, ht₁, hm₁, hr₁, hn₁, hs₁⟩ := hrec w p.2 w₁ hstep
      obtain ⟨E₂, ht₂, hm₂, hr₂, hn₂, hs₂⟩ := ih w₁ w' h
      refine ⟨E₁ ++ E₂, ?_, ?_, ?_, ?_, ?_⟩
      · rw [ht₂, ht₁, List.append_assoc]
      · intro d hd
        have hd1 : (getDefs w₁ d).imports = [] := by
          rcases hs₁ d with h' | h'
          · rw [h', hd]
          · exact h'
        rw [hasMergeOn_append, hm₁ d hd, hm₂ d hd1]
        rfl
      · intro d hd
        rw [hasResolveOn_append, Bool.or_eq_true] at hd
        rcases hd with hd | hd
        · have h1 := hr₁ d hd
          rcases hs₂ d with h' | h'
          · rw [h', h1]
          · exact h'
        · exact hr₂ d hd
      · intro d
        refine noMergeAfterResolve_append d E₁ E₂ (hn₁ d) (hn₂ d) ?_
        intro hres
        exact hm₂ d (hr₁ d hres)
      · intro d
        rcases hs₂ d with h' | h'
        · rw [h']
          exact hs₁ d
        · exact .inr h'

theorem resolveBody_traceSpec (recur : World → Nat → Except Err World)
    (hrec : TraceSpec recur) : TraceSpec (resolveBody recur) := by
  intro w x w' h
  simp only [resolveBody] at h
  cases hmerge : mergeAll w x (getDefs w x).imports with
  | error e => rw [hmerge] at h; cases h
  | ok w₁ =>
    rw [hmerge] at h
    have h' : (match resolveList recur
        (setDefs w₁ x { getDefs w₁ x with imports := [] }) (getDefs w x).imports with
      | Except.error e => Except.error e
      | Except.ok w => Except.ok (resolvePhase w x)) = Except.ok w' := h
    cases hlist : resolveList recur
        (setDefs w₁ x { getDefs w₁ x with imports := [] }) (getDefs w x).imports with
    | error e => rw [hlist] at h'; cases h'
    | ok w₃ =>
      rw [hlist] at h'
      cases h'
      have hM := mergeAll_trace (getDefs w x).imports w w₁ x hmerge
      have himp1 := mergeAll_imports_all (getDefs w x).imports w w₁ x hmerge
      have hx2 : (getDefs (setDefs w₁ x { getDefs w₁ x with imports := [] }) x).imports
          = [] := by
        by_cases hlen : x < w₁.store.length
        · rw [getDefs_setDefs_self w₁ x _ hlen]
        · rw [getDefs_setDefs_oob w₁ x _ hlen, getDefs_oob_default w₁ x hlen]
          rfl
      have himp2a : ∀ d, d ≠ x →
          getDefs (setDefs w₁ x { getDefs w₁ x with imports := [] }) d = getDefs w₁ d :=
        fun d hd => getDefs_setDefs_ne w₁ x d _ hd
      obtain ⟨R, htR, hmR, hrR, hnR, hsR⟩ := resolveList_traceSpec recur hrec
        (getDefs w x).imports (setDefs w₁ x { getDefs w₁ x with imports := [] }) w₃ hlist
      have hB := hasMergeOn_block
      have hphase : ∀ d, getDefs (resolvePhase w₃ x) d = getDefs w₃ d := fun d => rfl
      have hx3 : (getDefs w₃ x).imports = [] := by
        rcases hsR x with hh | hh
        · rw [hh, hx2]
        · exact hh
      refine ⟨(getDefs w x).imports.map (fun p => Event.mergeEvt x p.1 p.2)
        ++ (R ++ resolveBlock x (getDefs w₃ x)), ?_, ?_, ?_, ?_, ?_⟩
      · rw [resolvePhase_trace, htR, setDefs_trace, hM]
        simp [List.append_assoc]
      · intro d hd
        rw [hasMergeOn_append, hasMergeOn_append]
        have hm1 : hasMergeOn d
            ((getDefs w x).imports.map (fun p => Event.mergeEvt x p.1 p.2)) = false := by
          by_cases hdx : d = x
          · subst hdx
            simp [hd, hasMergeOn]
          · exact hasMergeOn_mergeEvts_ne d x _ hdx
        have hd2 : (getDefs (setDefs w₁ x { getDefs w₁ x with imports := [] }) d).imports
            = [] := by
          by_cases hdx : d = x
          · subst hdx; exact hx2
          · rw [himp2a d hdx, himp1 d, hd]
        rw [hm1, hmR d hd2, hasMergeOn_block]
        rfl
      · intro d hd
        rw [hasResolveOn_append, hasResolveOn_append, Bool.or_eq_true, Bool.or_eq_true] at hd
        rw [hphase d]
        rcases hd with hd | hd | hd
        · rw [hasResolveOn_mergeEvts] at hd
          cases hd
        · exact hrR d hd
        · have hdx := hasResolveOn_block_self d x _ hd
          subst hdx
          exact hx3
      · intro d
        refine noMergeAfterResolve_append d _ _
          (noMergeAfterResolve_of_no_resolve d _ (hasResolveOn_mergeEvts d x _)) ?_ ?_
        · refine noMergeAfterResolve_append d R _ (hnR d)
            (noMergeAfterResolve_of_no_merge d _ (hasMergeOn_block d x _)) ?_
          intro _
          exact hasMergeOn_block d x _
        · intro habs
          rw [hasResolveOn_mergeEvts] at habs
          cases habs
      · intro d
        rw [hphase d]
        by_cases hdx : d = x
        · subst hdx
          exact .inr hx3
        · rcases hsR d with hh | hh
          · rw [hh, himp2a d hdx, himp1 d]
            exact .inl rfl
          · exact .inr hh

theorem traceSpec_resolveImports : ∀ fuel, TraceSpec (resolveImports fuel) := by
  intro fuel
  induction fuel with
  | zero => intro w x w' h; cases h
  | succ n ih =>
    intro w x w' h
    exact resolveBody_traceSpec (resolveImports n) ih w x w' h

theorem resolveImports_frame (fuel : Nat) (w : World) (x : Nat) (w' : World)
    (h : resolveImports (fuel + 1) w x = .ok w') :
    ∃ (mid : List Event) (final : Defs),
      w'.trace = w.trace
        ++ (getDefs w x).imports.map (fun p => Event.mergeEvt x p.1 p.2)
        ++ mid
        ++ (final.messages.map (fun p => Event.resolveEvt .message p.2 x)
          ++ final.port_types.map (fun p => Event.resolveEvt .portType p.2 x)
          ++ final.bindings.map (fun p => Event.resolveEvt .binding p.2 x)
          ++ final.services.map (fun p => Event.resolveEvt .service p.2 x)) := by
  simp only [resolveImports, resolveBody] at h
  cases hmerge : mergeAll w x (getDefs w x).imports with
  | error e => rw [hmerge] at h; cases h
  | ok w₁ =>
    rw [hmerge] at h
    have h' : (match resolveList (resolveImports fuel)
        (setDefs w₁ x { getDefs w₁ x with imports := [] }) (getDefs w x).imports with
      | Except.error e => Except.error e
      | Except.ok w => Except.ok (resolvePhase w x)) = Except.ok w' := h
    cases hlist : resolveList (resolveImports fuel)
        (setDefs w₁ x { getDefs w₁ x with imports := [] }) (getDefs w x).imports with
    | error e => rw [hlist] at h'; cases h'
    | ok w₃ =>
      rw [hlist] at h'
      cases h'
      obtain ⟨R, htR, _, _, _, _⟩ := resolveList_traceSpec (resolveImports fuel)
        (traceSpec_resolveImports fuel) (getDefs w x).imports
        (setDefs w₁ x { getDefs w₁ x with imports := [] }) w₃ hlist
      refine ⟨R, getDefs w₃ x, ?_⟩
      rw [resolvePhase_trace, htR, setDefs_trace, mergeAll_trace _ w w₁ x hmerge]
      rfl

/-- C4: within one `resolve_imports` frame on any `Definitions`, every
pending import is merged (in dict order) before anything else the frame
does, and the frame's own entity `resolve(self)` calls come last, in the
fixed order messages, then port types, then bindings, then services; and
globally along the whole trace of any successful `resolve_imports` — the
recursion into imported documents and re-entrant frames of cyclic graphs
included — no `merge` into a document ever happens after one of that
document's entities has been resolved, i.e. `resolve()` is never invoked
on an entity before its own document's imports have been fully merged. -/
theorem claim_C4 :
    (∀ (fuel : Nat) (w : World) (x : Nat) (w' : World),
      resolveImports (fuel + 1) w x = .ok w' →
      ∃ (mid : List Event) (final : Defs),
        w'.trace = w.trace
          ++ (getDefs w x).imports.map (fun p => Event.mergeEvt x p.1 p.2)
          ++ mid
          ++ (final.messages.map (fun p => Event.resolveEvt .message p.2 x)
            ++ final.port_types.map (fun p => Event.resolveEvt .portType p.2 x)
            ++ final.bindings.map (fun p => Event.resolveEvt .binding p.2 x)
            ++ final.services.map (fun p => Event.resolveEvt .service p.2 x)))
    ∧ (∀ (fuel : Nat) (w : World) (x : Nat) (w' : World),
        resolveImports fuel w x = .ok w' → w.trace = [] →
        ∀ d, noMergeAfterResolve d w'.trace = true) := by
  refine ⟨resolveImports_frame, ?_⟩
  intro fuel w x w' h hw d
  obtain ⟨E, htE, _, _, hnE, _⟩ := traceSpec_resolveImports fuel w x w' h
  rw [htE, hw, List.nil_append]
  exact hnE d

/-- Witness for C4 on the concrete two-document cycle: the frame
decomposition of the root's `resolve_imports` and the global
merge-before-resolve ordering of the produced trace. -/
theorem claim_C4_witness :
    (∃ (mid : List Event) (final : Defs),
      (exOk (resolveImports 3 c4w 0)).trace = c4w.trace
        ++ (getDefs c4w 0).imports.map (fun p => Event.mergeEvt 0 p.1 p.2)
        ++ mid
        ++ (final.messages.map (fun p => Event.resolveEvt .message p.2 0)
          ++ final.port_types.map (fun p => Event.resolveEvt .portType p.2 0)
          ++ final.bindings.map (fun p => Event.resolveEvt .binding p.2 0)
          ++ final.services.map (fun p => Event.resolveEvt .service p.2 0)))
    ∧ (∀ d, noMergeAfterResolve d (exOk (resolveImports 3 c4w 0)).trace = true) :=
  ⟨claim_C4.1 2 c4w 0 (exOk (resolveImports 3 c4w 0)) (by decide),
   claim_C4.2 3 c4w 0 (exOk (resolveImports 3 c4w 0)) (by decide) rfl⟩
